import Mathlib

/-!
# Responsive night light: sensor-to-control-value mappers

A shallow embedding of the three `update()` members of the Arduino sketch

* `AnalogConfigureIntensity::update` (linear intensity mapper),
* `MicrophoneConfigureIntensity::update` (peak-to-peak amplitude over a sample window),
* `AnalogConfigureColor::update` (ten-slot moving average with a validity gate),

and of the Arduino core function `map` they call.

Conventions of the embedding.

* The hardware read `analogRead(pin)` is the input: every `update` takes the value(s) it read as
  an argument.  `Serial.print` calls and `pinMode` have no effect on the results and are left out.
* The target is the AVR data model of the boards whose ADC yields `0 .. 1023`: `int` has 16 bits,
  `long` has 32 bits.  `long` arithmetic inside `map` wraps modulo `2^32` (`wrapLong`); the width
  of `unsigned int` in the microphone mapper is a parameter `w` (16 on AVR).
* `float` values are the rationals they stand for.  Every integer that the code stores in a
  `float` here is below `2^24` in magnitude on the inputs considered and hence exact; the divisions
  by `255`, `360` and `10` are taken exactly, and the literal `0.1` is one tenth.  This reading is
  sound for a single returned value, for bounds and for order.  It is not sound for arithmetic
  between two returned values: there the rounding of each division matters, and
  `AnalogConfigureIntensity.updateFloat` gives the `float` actually returned, with `binary32`
  the rounding of the `float` format; `updateFloat` is `binary32` of `update`.  For an integer
  `n` the test `n > 0.1` is `n ≥ 1` in either reading.  For the quotient `t / 10` of an integer
  running total the test `> 0.1` differs between the two readings only at `t = 1`, a total with
  which the look-ahead entry tested next to it is `0` after every write, so the gate of
  `AnalogConfigureColor::update` is the same.
* A member function that mutates its object returns the new object next to its result.
-/

/-! ## Machine integers -/

/-- Range of the 16-bit `int` of the target. -/
def isInt (x : Int) : Prop := -32768 ≤ x ∧ x ≤ 32767

instance (x : Int) : Decidable (isInt x) := by
  unfold isInt; infer_instance

/-- Two's-complement wrap of a mathematical integer into the 32-bit `long`. -/
def wrapLong (x : Int) : Int := (x + 2147483648) % 4294967296 - 2147483648

/-- Conversion of an integer to an `unsigned int` of `w` bits: reduction modulo `2^w`. -/
def toUnsigned (w : Nat) (x : Int) : Nat := (x % (2 : Int) ^ w).toNat

/-- Conversion `float → long`: the fractional part is discarded (truncation toward zero). -/
def floatToLong (q : ℚ) : Int := if 0 ≤ q then ⌊q⌋ else ⌈q⌉

/-- Nearest integer to a rational, a tie going to the even neighbour. -/
def roundNearestEven (x : ℚ) : Int :=
  if x - ⌊x⌋ < 1 / 2 then ⌊x⌋
  else if 1 / 2 < x - ⌊x⌋ then ⌊x⌋ + 1
  else if ⌊x⌋ % 2 = 0 then ⌊x⌋ else ⌊x⌋ + 1

/-- Exponent of the unit in the last place of the `float` format (IEEE 754 binary32) at `q`:
24 significant bits below the leading power of two, and `2^(-149)` in the subnormal range. -/
def ulpExp (q : ℚ) : Int := max (Int.log 2 |q| - 23) (-149)

/-- The `float` nearest to the rational `q`: rounding to nearest, ties to even, onto the
multiples of the unit in the last place (IEEE 754 binary32; overflow, which needs
`|q| ≥ 2^128`, is not represented). -/
def binary32 (q : ℚ) : ℚ :=
  (roundNearestEven (q / (2 : ℚ) ^ ulpExp q) : ℚ) * (2 : ℚ) ^ ulpExp q

/-- Modelled from the spec: the linear remap `map` of the Arduino core, which the sources call but
do not contain.  The spec describes it as the linear remap of `[in_min, in_max]` onto
`[out_min, out_max]`; this is the core's integer definition
`(x - in_min) * (out_max - out_min) / (in_max - in_min) + out_min`, all operands being `long`,
`/` being C's truncating division. -/
def map (x in_min in_max out_min out_max : Int) : Int :=
  wrapLong (wrapLong ((wrapLong (wrapLong (x - in_min) * wrapLong (out_max - out_min))).tdiv
    (wrapLong (in_max - in_min))) + out_min)

/-! ## `AnalogConfigureIntensity` -/

/-- Data members of `AnalogConfigureIntensity` that `update` reads. -/
structure AnalogConfigureIntensity where
  /-- min analog input value to be mapped to intensity -/
  _minValue : Int
  /-- max analog input value to be mapped to intensity -/
  _maxValue : Int
  /-- true if intensity should be inverted -/
  _invert : Bool

namespace AnalogConfigureIntensity

/-- `AnalogConfigureIntensity::update`, as a function of the value `analogRead` returned. -/
def update (self : AnalogConfigureIntensity) (analogValue : Int) : ℚ :=
  let intensity : ℚ :=
    if self._invert then
      ((map analogValue self._minValue self._maxValue 255 0 : Int) : ℚ)
    else
      ((map analogValue self._minValue self._maxValue 0 255 : Int) : ℚ)
  let intensity : ℚ := intensity / 255
  if intensity > 0 then intensity else 0

/-- The statements of `AnalogConfigureIntensity::update` after the call of `map`, with every
`float` operation rounded: the `long` result `m` of `map` is converted to `float`, divided by
`255` in `float` arithmetic, and clamped below at `0`. -/
def intensityOfRemap (m : Int) : ℚ :=
  let intensity : ℚ := binary32 (m : ℚ)
  let intensity : ℚ := binary32 (intensity / 255)
  if intensity > 0 then intensity else 0

/-- `AnalogConfigureIntensity::update` with every `float` operation rounded: the `float` that the
call returns, where `update` gives the exact quotient that this `float` stands for. -/
def updateFloat (self : AnalogConfigureIntensity) (analogValue : Int) : ℚ :=
  intensityOfRemap
    (if self._invert then map analogValue self._minValue self._maxValue 255 0
      else map analogValue self._minValue self._maxValue 0 255)

end AnalogConfigureIntensity

/-! ## `MicrophoneConfigureIntensity` -/

namespace MicrophoneConfigureIntensity

/-- Body of the sampling loop of `MicrophoneConfigureIntensity::update` for one value read:
`acc` is `(signalMax, signalMin)`, both `unsigned int` of `w` bits.  The test against `1024`
compares two `int`s; the tests against `signalMax` and `signalMin` convert `analogValue` to
`unsigned int`. -/
def sample (w : Nat) (acc : Nat × Nat) (analogValue : Int) : Nat × Nat :=
  if analogValue < 1024 then
    if toUnsigned w analogValue > acc.1 then
      (toUnsigned w analogValue, acc.2)
    else if toUnsigned w analogValue < acc.2 then
      (acc.1, toUnsigned w analogValue)
    else acc
  else acc

/-- The pair `(signalMax, signalMin)` when the sampling loop ends, `samples` being the values
read during the window in the order read. -/
def scan (w : Nat) (samples : List Int) : Nat × Nat :=
  samples.foldl (sample w) (toUnsigned w 0, toUnsigned w 1024)

/-- The value of `peakToPeak`: the `unsigned int` difference `signalMax - signalMin`. -/
def peakToPeak (w : Nat) (samples : List Int) : Nat :=
  toUnsigned w (((scan w samples).1 : Int) - ((scan w samples).2 : Int))

/-- `MicrophoneConfigureIntensity::update`, as a function of the values read during the window. -/
def update (w : Nat) (samples : List Int) : ℚ :=
  let intensity : ℚ := (peakToPeak w samples : ℚ) / 1024
  if intensity > 0 then intensity else 0

end MicrophoneConfigureIntensity

/-! ## `AnalogConfigureColor` -/

/-- Data members of `AnalogConfigureColor` that `update` reads or writes.  The array
`_inputReadings` is a list; the two cursors are natural numbers. -/
structure AnalogConfigureColor where
  /-- min analog input value to be mapped to hue -/
  _minValue : Int
  /-- max analog input value to be mapped to hue -/
  _maxValue : Int
  _inputReadingsIndex : Nat
  _nextInputReadingsIndex : Nat
  _inputReadingsTotal : ℚ
  _inputReadings : List ℚ

namespace AnalogConfigureColor

/-- Capacity of the history, `_numInputReadings`. -/
abbrev _numInputReadings : Nat := 10

/-- The constructor `AnalogConfigureColor::AnalogConfigureColor`. -/
def ctor (minValue maxValue : Int) : AnalogConfigureColor where
  _minValue := minValue
  _maxValue := maxValue
  _inputReadingsIndex := 0
  _nextInputReadingsIndex := 1
  _inputReadingsTotal := 0
  _inputReadings := List.replicate _numInputReadings 0

/-- The block of `AnalogConfigureColor::update` guarded by `analogValue > 0.1`: the object after
the new reading has been recorded. -/
def record (self : AnalogConfigureColor) (analogValue : Int) : AnalogConfigureColor :=
  let oldValue : ℚ := self._inputReadings.getD self._inputReadingsIndex 0
  let total : ℚ := self._inputReadingsTotal - oldValue + (analogValue : ℚ)
  let readings : List ℚ := self._inputReadings.set self._inputReadingsIndex (analogValue : ℚ)
  let index : Nat := (self._inputReadingsIndex + 1) % _numInputReadings
  { self with
    _inputReadingsTotal := total
    _inputReadings := readings
    _inputReadingsIndex := index
    _nextInputReadingsIndex := (index + 1) % _numInputReadings }

/-- `AnalogConfigureColor::update`, as a function of the object and of the value `analogRead`
returned: the returned `hsl` and the object after the call. -/
def update (self : AnalogConfigureColor) (analogValue : Int) : ℚ × AnalogConfigureColor :=
  let hsl : ℚ := -1
  let smoothedAnalogValue : ℚ := 0
  let self' : AnalogConfigureColor :=
    if (analogValue : ℚ) > 1 / 10 then record self analogValue else self
  let smoothedAnalogValue : ℚ :=
    if (analogValue : ℚ) > 1 / 10 then
      self'._inputReadingsTotal / (_numInputReadings : ℚ)
    else smoothedAnalogValue
  let hsl : ℚ :=
    if smoothedAnalogValue > 1 / 10
        ∧ self'._inputReadings.getD self'._nextInputReadingsIndex 0 > 0
        ∧ analogValue > 0 then
      ((map (floatToLong smoothedAnalogValue) self._minValue self._maxValue 0 360 : Int) : ℚ) / 360
    else hsl
  (hsl, self')

/-- Successive calls of `update`, one per value read: the values returned, in order, and the
object after the last call. -/
def updates (self : AnalogConfigureColor) : List Int → List ℚ × AnalogConfigureColor
  | [] => ([], self)
  | v :: vs =>
    let r := update self v
    let rs := updates r.2 vs
    (r.1 :: rs.1, rs.2)

/-- Number of values of a sequence that `update` writes to the history (those above the noise
floor `0.1`). -/
def writes (samples : List Int) : Nat :=
  (samples.filter (fun (v : Int) => decide ((v : ℚ) > 1 / 10))).length

/-- The object is reachable: it results from the constructor by a sequence of `update` calls. -/
def Reachable (s : AnalogConfigureColor) : Prop :=
  ∃ (minValue maxValue : Int) (samples : List Int),
    s = (updates (ctor minValue maxValue) samples).2

/-- Shape of the object that every call relies on: the array has its ten entries, the write
cursor is inside it, the look-ahead cursor is one past the write cursor, and the running total is
the sum of the entries. -/
def WellFormed (s : AnalogConfigureColor) : Prop :=
  s._inputReadings.length = _numInputReadings
  ∧ s._inputReadingsIndex < _numInputReadings
  ∧ s._nextInputReadingsIndex = (s._inputReadingsIndex + 1) % _numInputReadings
  ∧ s._inputReadingsTotal = s._inputReadings.sum

/-- The `k` entries written last (at most the whole array) all hold `v`. -/
def LastWritten (v : ℚ) (k : Nat) (s : AnalogConfigureColor) : Prop :=
  ∀ m : Nat, m < k → m < _numInputReadings →
    s._inputReadings.getD ((s._inputReadingsIndex + 9 - m) % _numInputReadings) 0 = v

/-- The values that `update` writes when it reads `samples` in order, most recent first, put in
front of the values `H` written before. -/
def written (H : List ℚ) : List Int → List ℚ
  | [] => H
  | v :: vs => written (if (v : ℚ) > 1 / 10 then (v : ℚ) :: H else H) vs

/-- The object holds the history `H` (values written, most recent first, `0` where nothing was
written): the entry `m` places behind the write cursor is the `m`-th of `H`, and the running
total is the sum of the first ten of `H`. -/
def History (H : List ℚ) (s : AnalogConfigureColor) : Prop :=
  (∀ m : Nat, m < _numInputReadings →
    s._inputReadings.getD ((s._inputReadingsIndex + 9 - m) % _numInputReadings) 0 = H.getD m 0)
  ∧ s._inputReadingsTotal = (H.take _numInputReadings).sum

/-- The non-zero samples of a sequence of readings, most recent first, in the words of the
specification of the moving average. -/
def nonZeroRecent (samples : List Int) : List Int :=
  (samples.filter (fun (v : Int) => decide (v ≠ 0))).reverse

/-- Sum of the ten most recent non-zero samples, in the words of the specification (of all of
them while there are fewer than ten). -/
def recentSum (samples : List Int) : Int :=
  ((nonZeroRecent samples).take _numInputReadings).sum

end AnalogConfigureColor

/-! ## Facts about the machine integers and `map` -/

theorem wrapLong_of_range {x : Int} (h1 : -2147483648 ≤ x) (h2 : x < 2147483648) :
    wrapLong x = x := by
  unfold wrapLong
  omega

theorem tdiv_bounds (a b : Int) :
    -(a.natAbs : Int) ≤ a.tdiv b ∧ a.tdiv b ≤ (a.natAbs : Int) := by
  have h1 : (a.tdiv b).natAbs = a.natAbs / b.natAbs := Int.natAbs_tdiv a b
  have h2 : (a.tdiv b).natAbs ≤ a.natAbs := by
    rw [h1]
    exact Nat.div_le_self _ _
  omega

/-- For 16-bit arguments no `long` operation of `map` onto `[0, 255]` wraps. -/
theorem map_0_255 {x a b : Int} (hx : isInt x) (ha : isInt a) (hb : isInt b) :
    map x a b 0 255 = ((x - a) * 255).tdiv (b - a) := by
  obtain ⟨hx1, hx2⟩ := hx
  obtain ⟨ha1, ha2⟩ := ha
  obtain ⟨hb1, hb2⟩ := hb
  have hq := tdiv_bounds ((x - a) * 255) (b - a)
  unfold map
  rw [wrapLong_of_range (x := x - a) (by omega) (by omega),
    wrapLong_of_range (x := 255 - 0) (by omega) (by omega),
    wrapLong_of_range (x := b - a) (by omega) (by omega)]
  rw [show (255 : Int) - 0 = 255 from rfl,
    wrapLong_of_range (x := (x - a) * 255) (by omega) (by omega),
    wrapLong_of_range (x := ((x - a) * 255).tdiv (b - a)) (by omega) (by omega),
    wrapLong_of_range (by omega) (by omega)]
  omega

/-- For 16-bit arguments no `long` operation of `map` onto `[255, 0]` wraps, and the result is
the mirror image of the remap onto `[0, 255]`. -/
theorem map_255_0 {x a b : Int} (hx : isInt x) (ha : isInt a) (hb : isInt b) :
    map x a b 255 0 = 255 - ((x - a) * 255).tdiv (b - a) := by
  obtain ⟨hx1, hx2⟩ := hx
  obtain ⟨ha1, ha2⟩ := ha
  obtain ⟨hb1, hb2⟩ := hb
  have hq := tdiv_bounds ((x - a) * 255) (b - a)
  have hneg : ((x - a) * -255).tdiv (b - a) = -(((x - a) * 255).tdiv (b - a)) := by
    rw [show (x - a) * -255 = -((x - a) * 255) by ring, Int.neg_tdiv]
  unfold map
  rw [wrapLong_of_range (x := x - a) (by omega) (by omega),
    wrapLong_of_range (x := 0 - 255) (by omega) (by omega),
    wrapLong_of_range (x := b - a) (by omega) (by omega)]
  rw [show (0 : Int) - 255 = -255 from rfl,
    wrapLong_of_range (x := (x - a) * -255) (by omega) (by omega), hneg,
    wrapLong_of_range (x := -(((x - a) * 255).tdiv (b - a))) (by omega) (by omega),
    wrapLong_of_range (by omega) (by omega)]
  omega

/-- Inside the calibration range the truncated remap onto `[0, 255]` stays in `[0, 255]`. -/
theorem remap_in_range {x a b : Int} (hab : a < b) (h1 : a ≤ x) (h2 : x ≤ b) :
    0 ≤ ((x - a) * 255).tdiv (b - a) ∧ ((x - a) * 255).tdiv (b - a) ≤ 255 := by
  have hnum : 0 ≤ (x - a) * 255 := by omega
  have hden : 0 < b - a := by omega
  rw [Int.tdiv_eq_ediv hnum (le_of_lt hden)]
  constructor
  · exact Int.ediv_nonneg hnum (le_of_lt hden)
  · apply Int.ediv_le_of_le_mul hden
    omega

/-! ## `AnalogConfigureIntensity::update` -/

/-- C4. Calibration endpoints: for every 16-bit calibration with `minValue ≠ maxValue`, the
sample `minValue` yields `0` (not inverted) and `1` (inverted), and the sample `maxValue` yields
`1` (not inverted) and `0` (inverted). -/
theorem AnalogConfigureIntensity.update_endpoints (minValue maxValue : Int)
    (hmin : isInt minValue) (hmax : isInt maxValue) (hne : minValue ≠ maxValue) :
    AnalogConfigureIntensity.update ⟨minValue, maxValue, false⟩ minValue = 0
    ∧ AnalogConfigureIntensity.update ⟨minValue, maxValue, true⟩ minValue = 1
    ∧ AnalogConfigureIntensity.update ⟨minValue, maxValue, false⟩ maxValue = 1
    ∧ AnalogConfigureIntensity.update ⟨minValue, maxValue, true⟩ maxValue = 0 := by
  have hd : maxValue - minValue ≠ 0 := fun h => hne (by omega)
  have hfull : ((maxValue - minValue) * 255).tdiv (maxValue - minValue) = 255 :=
    Int.mul_tdiv_cancel_left 255 hd
  have e1 : map minValue minValue maxValue 0 255 = 0 := by
    rw [map_0_255 hmin hmin hmax]; simp
  have e2 : map minValue minValue maxValue 255 0 = 255 := by
    rw [map_255_0 hmin hmin hmax]; simp
  have e3 : map maxValue minValue maxValue 0 255 = 255 := by
    rw [map_0_255 hmax hmin hmax, hfull]
  have e4 : map maxValue minValue maxValue 255 0 = 0 := by
    rw [map_255_0 hmax hmin hmax, hfull]; rfl
  refine ⟨?_, ?_, ?_, ?_⟩
  · simp [AnalogConfigureIntensity.update, e1]
  · norm_num [AnalogConfigureIntensity.update, e2]
  · norm_num [AnalogConfigureIntensity.update, e3]
  · simp [AnalogConfigureIntensity.update, e4]

/-- The endpoints of the calibration `(0, 1023)`. -/
theorem AnalogConfigureIntensity.update_endpoints_witness :
    AnalogConfigureIntensity.update ⟨0, 1023, false⟩ 0 = 0
    ∧ AnalogConfigureIntensity.update ⟨0, 1023, true⟩ 0 = 1
    ∧ AnalogConfigureIntensity.update ⟨0, 1023, false⟩ 1023 = 1
    ∧ AnalogConfigureIntensity.update ⟨0, 1023, true⟩ 1023 = 0 :=
  AnalogConfigureIntensity.update_endpoints 0 1023 (by decide) (by decide) (by decide)

/-- C5. Lower clamp: for every sample, every calibration with `minValue ≠ maxValue` and either
direction, the result is never negative, and it is exactly `0` whenever the integer remap of the
sample (onto `[255, 0]` when inverted, onto `[0, 255]` otherwise) is negative. -/
theorem AnalogConfigureIntensity.update_lower_clamp (minValue maxValue analogValue : Int)
    (invert : Bool) (_hne : minValue ≠ maxValue) :
    0 ≤ AnalogConfigureIntensity.update ⟨minValue, maxValue, invert⟩ analogValue
    ∧ ((if invert then map analogValue minValue maxValue 255 0
          else map analogValue minValue maxValue 0 255) < 0 →
        AnalogConfigureIntensity.update ⟨minValue, maxValue, invert⟩ analogValue = 0) := by
  constructor
  · unfold AnalogConfigureIntensity.update
    simp only
    split_ifs with h1 h2 h2
    · exact le_of_lt h2
    · exact le_refl _
    · exact le_of_lt h2
    · exact le_refl _
  · intro hneg
    unfold AnalogConfigureIntensity.update
    simp only
    cases invert
    · simp only [Bool.false_eq_true, if_false] at hneg ⊢
      have hq : ((map analogValue minValue maxValue 0 255 : Int) : ℚ) < 0 := by exact_mod_cast hneg
      have hq2 : ¬ ((map analogValue minValue maxValue 0 255 : Int) : ℚ) / 255 > 0 := by
        have : ((map analogValue minValue maxValue 0 255 : Int) : ℚ) / 255 < 0 :=
          div_neg_of_neg_of_pos hq (by norm_num)
        exact not_lt.mpr (le_of_lt this)
      rw [if_neg hq2]
    · simp only [if_true] at hneg ⊢
      have hq : ((map analogValue minValue maxValue 255 0 : Int) : ℚ) < 0 := by exact_mod_cast hneg
      have hq2 : ¬ ((map analogValue minValue maxValue 255 0 : Int) : ℚ) / 255 > 0 := by
        have : ((map analogValue minValue maxValue 255 0 : Int) : ℚ) / 255 < 0 :=
          div_neg_of_neg_of_pos hq (by norm_num)
        exact not_lt.mpr (le_of_lt this)
      rw [if_neg hq2]

/-- The sample `50` under the calibration `(100, 900)` remaps to `-15` and is clamped to `0`. -/
theorem AnalogConfigureIntensity.update_lower_clamp_witness :
    (100 : Int) ≠ 900 ∧ map 50 100 900 0 255 = -15
    ∧ AnalogConfigureIntensity.update ⟨100, 900, false⟩ 50 = 0 :=
  ⟨by decide, by decide,
    (AnalogConfigureIntensity.update_lower_clamp 100 900 50 false (by decide)).2 (by decide)⟩

/-- C10. Inside the calibration range: for every 16-bit calibration with `minValue < maxValue`,
every sample with `minValue ≤ analogValue ≤ maxValue` and either direction, the result lies in
`[0, 1]`. -/
theorem AnalogConfigureIntensity.update_in_unit_interval (minValue maxValue analogValue : Int)
    (invert : Bool) (hmin : isInt minValue) (hmax : isInt maxValue)
    (hlt : minValue < maxValue) (h1 : minValue ≤ analogValue) (h2 : analogValue ≤ maxValue) :
    0 ≤ AnalogConfigureIntensity.update ⟨minValue, maxValue, invert⟩ analogValue
    ∧ AnalogConfigureIntensity.update ⟨minValue, maxValue, invert⟩ analogValue ≤ 1 := by
  have hx : isInt analogValue := ⟨le_trans hmin.1 h1, le_trans h2 hmax.2⟩
  obtain ⟨r1, r2⟩ := remap_in_range hlt h1 h2
  have key : ∀ m : Int, 0 ≤ m → m ≤ 255 →
      0 ≤ (if ((m : ℚ) / 255 > 0) then (m : ℚ) / 255 else 0)
      ∧ (if ((m : ℚ) / 255 > 0) then (m : ℚ) / 255 else 0) ≤ 1 := by
    intro m hm0 hm1
    have q0 : (0 : ℚ) ≤ (m : ℚ) := by exact_mod_cast hm0
    have q1 : (m : ℚ) ≤ 255 := by exact_mod_cast hm1
    split_ifs with h
    · exact ⟨le_of_lt h, by rw [div_le_one (by norm_num)]; exact q1⟩
    · exact ⟨le_refl _, by norm_num⟩
  cases invert
  · have e := map_0_255 hx hmin hmax
    simp only [AnalogConfigureIntensity.update, Bool.false_eq_true, if_false, e]
    exact key _ r1 r2
  · have e := map_255_0 hx hmin hmax
    simp only [AnalogConfigureIntensity.update, if_true, e]
    exact key _ (by omega) (by omega)

/-- The sample `511` under the inverted calibration `(0, 1023)`. -/
theorem AnalogConfigureIntensity.update_in_unit_interval_witness :
    0 ≤ AnalogConfigureIntensity.update ⟨0, 1023, true⟩ 511
    ∧ AnalogConfigureIntensity.update ⟨0, 1023, true⟩ 511 ≤ 1 :=
  AnalogConfigureIntensity.update_in_unit_interval 0 1023 511 true (by decide) (by decide)
    (by decide) (by decide) (by decide)

/-! ## `MicrophoneConfigureIntensity::update` -/

/-- C2. The result depends on the order of the samples: the window `100, 300, 50, 900` gives
`850 / 1024`, but the same samples read in increasing order never reach the `else if` that
records the minimum, `signalMin` stays `1024`, and the 16-bit unsigned difference `900 - 1024`
wraps to `65412`; a window holding the single sample `100` gives `64612 / 1024`. -/
theorem MicrophoneConfigureIntensity.update_order_dependent :
    MicrophoneConfigureIntensity.update 16 [100, 300, 50, 900] = 850 / 1024
    ∧ MicrophoneConfigureIntensity.scan 16 [50, 100, 300, 900] = (900, 1024)
    ∧ MicrophoneConfigureIntensity.update 16 [50, 100, 300, 900] = 65412 / 1024
    ∧ MicrophoneConfigureIntensity.update 16 [100] = 64612 / 1024 := by
  have h1 : MicrophoneConfigureIntensity.peakToPeak 16 [100, 300, 50, 900] = 850 := by decide
  have h2 : MicrophoneConfigureIntensity.peakToPeak 16 [50, 100, 300, 900] = 65412 := by decide
  have h3 : MicrophoneConfigureIntensity.peakToPeak 16 [100] = 64612 := by decide
  refine ⟨?_, by decide, ?_, ?_⟩
  · norm_num [MicrophoneConfigureIntensity.update, h1]
  · norm_num [MicrophoneConfigureIntensity.update, h2]
  · norm_num [MicrophoneConfigureIntensity.update, h3]

/-- C3. A window without a valid sample leaves `signalMax = 0` and `signalMin = 1024`, but the
result is not `0`: the unsigned difference `0 - 1024` wraps, and `update` returns `63` with a
16-bit `unsigned int` and `4194303` with a 32-bit one. -/
theorem MicrophoneConfigureIntensity.update_no_valid_sample :
    MicrophoneConfigureIntensity.scan 16 [] = (0, 1024)
    ∧ MicrophoneConfigureIntensity.update 16 [] = 63
    ∧ MicrophoneConfigureIntensity.scan 16 [1024, 2047] = (0, 1024)
    ∧ MicrophoneConfigureIntensity.update 16 [1024, 2047] = 63
    ∧ MicrophoneConfigureIntensity.update 32 [1024, 2047] = 4194303 := by
  have h1 : MicrophoneConfigureIntensity.peakToPeak 16 [] = 64512 := by decide
  have h2 : MicrophoneConfigureIntensity.peakToPeak 16 [1024, 2047] = 64512 := by decide
  have h3 : MicrophoneConfigureIntensity.peakToPeak 32 [1024, 2047] = 4294966272 := by decide
  refine ⟨by decide, ?_, by decide, ?_, ?_⟩
  · norm_num [MicrophoneConfigureIntensity.update, h1]
  · norm_num [MicrophoneConfigureIntensity.update, h2]
  · norm_num [MicrophoneConfigureIntensity.update, h3]

/-- C9. The result can exceed `1` on samples of the raw domain: for the rising window
`100, 200, 300` the minimum is never recorded and `update` returns `64812 / 1024 > 63`. -/
theorem MicrophoneConfigureIntensity.update_above_one :
    MicrophoneConfigureIntensity.scan 16 [100, 200, 300] = (300, 1024)
    ∧ MicrophoneConfigureIntensity.update 16 [100, 200, 300] = 64812 / 1024
    ∧ 1 < MicrophoneConfigureIntensity.update 16 [100, 200, 300] := by
  have h1 : MicrophoneConfigureIntensity.peakToPeak 16 [100, 200, 300] = 64812 := by decide
  refine ⟨by decide, ?_, ?_⟩
  · norm_num [MicrophoneConfigureIntensity.update, h1]
  · norm_num [MicrophoneConfigureIntensity.update, h1]

/-! ## `AnalogConfigureColor::update` -/

namespace AnalogConfigureColor

theorem update_not_recorded (s : AnalogConfigureColor) (v : Int) (hv : ¬ (v : ℚ) > 1 / 10) :
    update s v = (-1, s) := by
  simp only [update, if_neg hv]
  norm_num

theorem cast_gt_tenth {v : Int} (hv : 0 < v) : (v : ℚ) > 1 / 10 := by
  have h1 : (1 : ℚ) ≤ (v : ℚ) := by exact_mod_cast hv
  linarith

theorem update_recorded_snd (s : AnalogConfigureColor) (v : Int) (hv : 0 < v) :
    (update s v).2 = record s v := by
  simp only [update, if_pos (cast_gt_tenth hv)]

theorem update_minValue (s : AnalogConfigureColor) (v : Int) :
    (update s v).2._minValue = s._minValue ∧ (update s v).2._maxValue = s._maxValue := by
  unfold update
  simp only
  split_ifs <;> simp [record]

theorem updates_minValue (s : AnalogConfigureColor) (vs : List Int) :
    (updates s vs).2._minValue = s._minValue ∧ (updates s vs).2._maxValue = s._maxValue := by
  induction vs generalizing s with
  | nil => simp [updates]
  | cons v vs ih =>
    simp only [updates]
    rw [(ih _).1, (ih _).2]
    exact update_minValue s v

theorem updates_append (s : AnalogConfigureColor) (xs ys : List Int) :
    updates s (xs ++ ys)
      = ((updates s xs).1 ++ (updates (updates s xs).2 ys).1, (updates (updates s xs).2 ys).2) := by
  induction xs generalizing s with
  | nil => simp [updates]
  | cons x xs ih => simp [updates, ih]

theorem updates_singleton (s : AnalogConfigureColor) (v : Int) :
    updates s [v] = ([(update s v).1], (update s v).2) := by
  simp [updates]

theorem sum_set (l : List ℚ) (i : Nat) (x : ℚ) (hi : i < l.length) :
    (l.set i x).sum = l.sum - l.getD i 0 + x := by
  induction l generalizing i with
  | nil => simp at hi
  | cons a l ih =>
    cases i with
    | zero =>
      simp only [List.set_cons_zero, List.sum_cons, List.getD_cons_zero]
      ring
    | succ i =>
      have hi2 : i < l.length := by simpa using hi
      simp only [List.set_cons_succ, List.sum_cons, List.getD_cons_succ, ih i hi2]
      ring

theorem getD_set (l : List ℚ) (i j : Nat) (x : ℚ) (hi : i < l.length) :
    (l.set i x).getD j 0 = if j = i then x else l.getD j 0 := by
  simp only [List.getD_eq_getElem?_getD, List.getElem?_set]
  by_cases h : i = j
  · subst h
    simp [hi]
  · have h2 : ¬ j = i := fun e => h e.symm
    simp [h, h2]

theorem wellFormed_ctor (minValue maxValue : Int) : WellFormed (ctor minValue maxValue) := by
  refine ⟨?_, ?_, ?_, ?_⟩ <;> simp [ctor]

theorem wellFormed_record (s : AnalogConfigureColor) (v : Int) (h : WellFormed s) :
    WellFormed (record s v) := by
  obtain ⟨h1, h2, _, h4⟩ := h
  refine ⟨?_, ?_, ?_, ?_⟩
  · simpa [record] using h1
  · simp only [record]
    exact Nat.mod_lt _ (by decide)
  · simp [record]
  · simp only [record]
    rw [sum_set _ _ _ (by rw [h1]; exact h2), h4]

theorem wellFormed_update (s : AnalogConfigureColor) (v : Int) (h : WellFormed s) :
    WellFormed (update s v).2 := by
  unfold update
  simp only
  split_ifs
  · exact wellFormed_record s v h
  · exact h

theorem wellFormed_updates (s : AnalogConfigureColor) (vs : List Int) (h : WellFormed s) :
    WellFormed (updates s vs).2 := by
  induction vs generalizing s with
  | nil => simpa [updates] using h
  | cons v vs ih =>
    simp only [updates]
    exact ih _ (wellFormed_update s v h)

theorem wellFormed_of_reachable (s : AnalogConfigureColor) (h : Reachable s) : WellFormed s := by
  obtain ⟨a, b, vs, rfl⟩ := h
  exact wellFormed_updates _ vs (wellFormed_ctor a b)

theorem lastWritten_record (s : AnalogConfigureColor) (v : Int) (k : Nat) (h : WellFormed s)
    (hk : LastWritten (v : ℚ) k s) : LastWritten (v : ℚ) (k + 1) (record s v) := by
  obtain ⟨h1, h2, _, _⟩ := h
  intro m hm hm10
  have hlen : s._inputReadingsIndex < s._inputReadings.length := by rw [h1]; exact h2
  simp only [record]
  rw [getD_set _ _ _ _ hlen]
  split_ifs with hij
  · rfl
  · cases m with
    | zero =>
      exfalso
      apply hij
      simp only [_numInputReadings] at h2 ⊢
      omega
    | succ m =>
      have hprev := hk m (by omega) (by omega)
      have hidx : (((s._inputReadingsIndex + 1) % _numInputReadings + 9 - (m + 1))
          % _numInputReadings) = (s._inputReadingsIndex + 9 - m) % _numInputReadings := by
        simp only [_numInputReadings] at h2 hm10 ⊢
        omega
      rw [hidx]
      exact hprev

theorem lastWritten_replicate (s : AnalogConfigureColor) (v : Int) (n : Nat) (hv : 0 < v)
    (h : WellFormed s) : LastWritten (v : ℚ) n (updates s (List.replicate n v)).2 := by
  induction n with
  | zero =>
    intro m hm
    omega
  | succ n ih =>
    rw [List.replicate_succ', updates_append, updates_singleton]
    simp only
    rw [update_recorded_snd _ _ hv]
    exact lastWritten_record _ v n (wellFormed_updates s _ h) ih

theorem readings_of_lastWritten (s : AnalogConfigureColor) (v : ℚ) (k : Nat) (hk : 10 ≤ k)
    (h : WellFormed s) (hl : LastWritten v k s) :
    s._inputReadings = List.replicate _numInputReadings v := by
  obtain ⟨h1, h2, _, _⟩ := h
  rw [List.eq_replicate_iff]
  refine ⟨h1, ?_⟩
  intro b hb
  obtain ⟨j, hj, rfl⟩ := List.getElem_of_mem hb
  have hj10 : j < 10 := by rw [h1] at hj; exact hj
  have hm := hl ((s._inputReadingsIndex + 9 - j) % 10) (by omega) (by
    simp only [_numInputReadings]; omega)
  have hidx : (s._inputReadingsIndex + 9 - (s._inputReadingsIndex + 9 - j) % 10)
      % _numInputReadings = j := by
    simp only [_numInputReadings] at h2 ⊢
    omega
  rw [hidx, List.getD_eq_getElem _ _ hj] at hm
  exact hm

theorem floatToLong_intCast (v : Int) : floatToLong (v : ℚ) = v := by
  unfold floatToLong
  split_ifs <;> simp

/-- The value returned by a call that recorded `v` into a history which then holds `v` in all
ten entries. -/
theorem update_steady (s : AnalogConfigureColor) (v : Int) (hv : 0 < v)
    (hr : (record s v)._inputReadings = List.replicate _numInputReadings (v : ℚ))
    (hw : WellFormed (record s v)) :
    (update s v).1 = ((map v s._minValue s._maxValue 0 360 : Int) : ℚ) / 360 := by
  obtain ⟨_, h2, h3, h4⟩ := hw
  have hnext : (record s v)._nextInputReadingsIndex < 10 := by
    rw [h3]; exact Nat.mod_lt _ (by decide)
  have htot : (record s v)._inputReadingsTotal = 10 * (v : ℚ) := by
    rw [h4, hr]; simp
  have hq : (v : ℚ) > 1 / 10 := cast_gt_tenth hv
  have hget : (record s v)._inputReadings.getD (record s v)._nextInputReadingsIndex 0 = (v : ℚ) := by
    rw [hr, List.getD_eq_getElem _ _ (by simpa using hnext)]
    simp
  have hsm : (record s v)._inputReadingsTotal / ((_numInputReadings : Nat) : ℚ) = (v : ℚ) := by
    rw [htot]; norm_num
  have hv0 : (0 : ℚ) < (v : ℚ) := by exact_mod_cast hv
  unfold update
  simp only [if_pos hq, hsm, hget, floatToLong_intCast]
  rw [if_pos ⟨hq, hv0, hv⟩]

end AnalogConfigureColor

namespace AnalogConfigureColor

theorem writes_cons (v : Int) (vs : List Int) :
    writes (v :: vs) = (if (v : ℚ) > 1 / 10 then 1 else 0) + writes vs := by
  unfold writes
  by_cases hv : (v : ℚ) > 1 / 10
  · rw [List.filter_cons, if_pos (decide_eq_true hv), if_pos hv, List.length_cons]
    omega
  · rw [List.filter_cons, if_neg (fun h => hv (of_decide_eq_true h)), if_neg hv]
    omega

/-- While the write cursor has not passed entry `8` of a history whose entries from the cursor
on are still `0`, the look-ahead entry is `0` after each write and every call returns `-1`. -/
theorem updates_warming_from (s : AnalogConfigureColor) (samples : List Int)
    (hlen : s._inputReadings.length = _numInputReadings)
    (hk : s._inputReadingsIndex + writes samples ≤ 8)
    (hz : ∀ j : Nat, s._inputReadingsIndex ≤ j → s._inputReadings.getD j 0 = 0) :
    ∀ r ∈ (updates s samples).1, r = -1 := by
  induction samples generalizing s with
  | nil =>
    intro r hr
    simp [updates] at hr
  | cons v vs ih =>
    rw [writes_cons] at hk
    intro r hr
    simp only [updates, List.mem_cons] at hr
    by_cases hv : (v : ℚ) > 1 / 10
    · rw [if_pos hv] at hk
      have hidx : s._inputReadingsIndex < s._inputReadings.length := by
        rw [hlen]; simp only [_numInputReadings]; omega
      have hrec : (update s v).2 = record s v := by
        simp only [update, if_pos hv]
      have hnext : (record s v)._inputReadings.getD (record s v)._nextInputReadingsIndex 0 = 0 := by
        simp only [record]
        rw [getD_set _ _ _ _ hidx, if_neg (by simp only [_numInputReadings]; omega)]
        exact hz _ (by simp only [_numInputReadings]; omega)
      have hout : (update s v).1 = -1 := by
        simp only [update, if_pos hv]
        rw [if_neg]
        rw [hnext]
        intro h
        exact lt_irrefl _ h.2.1
      rcases hr with hr | hr
      · rw [hr, hout]
      · rw [hrec] at hr
        refine ih (record s v) ?_ ?_ ?_ r hr
        · simpa [record] using hlen
        · simp only [record, _numInputReadings]
          omega
        · intro j hj
          simp only [record] at hj ⊢
          rw [getD_set _ _ _ _ hidx, if_neg (by simp only [_numInputReadings] at hj; omega)]
          exact hz j (by simp only [_numInputReadings] at hj; omega)
    · rw [if_neg hv, Nat.zero_add] at hk
      rw [update_not_recorded s v hv] at hr
      rcases hr with hr | hr
      · exact hr
      · exact ih s hlen hk hz r hr

/-- From a fresh mapper, every call of a sequence that writes at most eight entries returns the
sentinel `-1`. -/
theorem updates_warming (minValue maxValue : Int) (samples : List Int)
    (hk : writes samples ≤ 8) :
    ∀ r ∈ (updates (ctor minValue maxValue) samples).1, r = -1 := by
  apply updates_warming_from
  · simp [ctor]
  · simpa [ctor] using hk
  · intro j _
    simp only [ctor, List.getD_eq_getElem?_getD]
    by_cases hj : j < 10
    · simp [hj]
    · simp [hj]

end AnalogConfigureColor

/-- C1. The gate opens one write early: from a fresh mapper calibrated `(0, 1023)`, nine calls
reading `500` write nine entries, the first eight return `-1`, and the ninth already returns
`158 / 360 = 79 / 180`, the remap of the mean `450` of nine readings and one empty entry. -/
theorem AnalogConfigureColor.update_ninth_write_emits :
    AnalogConfigureColor.writes (List.replicate 9 500) = 9
    ∧ (AnalogConfigureColor.updates (AnalogConfigureColor.ctor 0 1023) (List.replicate 9 500)).1
        = [-1, -1, -1, -1, -1, -1, -1, -1, 79 / 180] := by
  have hmap : map 450 0 1023 0 360 = 158 := by decide
  constructor
  · norm_num [AnalogConfigureColor.writes, List.replicate]
  · norm_num [AnalogConfigureColor.updates, AnalogConfigureColor.update,
      AnalogConfigureColor.record, AnalogConfigureColor.ctor, List.replicate, floatToLong, hmap]

/-- C6. Zero suppresses: in every state of the mapper, reachable or not, a call that reads
exactly `0` returns the sentinel `-1`. -/
theorem AnalogConfigureColor.update_zero_sentinel (s : AnalogConfigureColor) :
    (AnalogConfigureColor.update s 0).1 = -1 := by
  rw [AnalogConfigureColor.update_not_recorded s 0 (by norm_num)]

/-- C7. Steady state: from a reachable state with `_minValue ≠ _maxValue`, after `n ≥ 10`
consecutive calls reading the same `v > 0` the history holds `v` in all ten entries and the total
is `10 * v`; the last of these calls and the next call reading `v` both return
`map(v, _minValue, _maxValue, 0, 360) / 360`, and the next call leaves history and total as they
are and only advances the write cursor. -/
theorem AnalogConfigureColor.steady_state (s : AnalogConfigureColor) (v : Int) (n : Nat)
    (hs : AnalogConfigureColor.Reachable s) (_hne : s._minValue ≠ s._maxValue)
    (hv : 0 < v) (hn : 10 ≤ n) :
    (AnalogConfigureColor.updates s (List.replicate n v)).2._inputReadings
        = List.replicate 10 (v : ℚ)
    ∧ (AnalogConfigureColor.updates s (List.replicate n v)).2._inputReadingsTotal = 10 * (v : ℚ)
    ∧ (AnalogConfigureColor.updates s (List.replicate n v)).1.getLast?
        = some (((map v s._minValue s._maxValue 0 360 : Int) : ℚ) / 360)
    ∧ (AnalogConfigureColor.update
          (AnalogConfigureColor.updates s (List.replicate n v)).2 v).1
        = ((map v s._minValue s._maxValue 0 360 : Int) : ℚ) / 360
    ∧ (AnalogConfigureColor.update
          (AnalogConfigureColor.updates s (List.replicate n v)).2 v).2._inputReadings
        = (AnalogConfigureColor.updates s (List.replicate n v)).2._inputReadings
    ∧ (AnalogConfigureColor.update
          (AnalogConfigureColor.updates s (List.replicate n v)).2 v).2._inputReadingsTotal
        = (AnalogConfigureColor.updates s (List.replicate n v)).2._inputReadingsTotal
    ∧ (AnalogConfigureColor.update
          (AnalogConfigureColor.updates s (List.replicate n v)).2 v).2._inputReadingsIndex
        = ((AnalogConfigureColor.updates s (List.replicate n v)).2._inputReadingsIndex + 1)
            % 10 := by
  have hw := AnalogConfigureColor.wellFormed_of_reachable s hs
  have hwt := AnalogConfigureColor.wellFormed_updates s (List.replicate n v) hw
  have hl := AnalogConfigureColor.lastWritten_replicate s v n hv hw
  have hr := AnalogConfigureColor.readings_of_lastWritten _ (v : ℚ) n hn hwt hl
  have htot : (AnalogConfigureColor.updates s (List.replicate n v)).2._inputReadingsTotal
      = 10 * (v : ℚ) := by
    rw [hwt.2.2.2, hr]; simp
  -- the next call
  have hw2 := AnalogConfigureColor.wellFormed_record _ v hwt
  have hl2 := AnalogConfigureColor.lastWritten_record _ v n hwt hl
  have hr2 := AnalogConfigureColor.readings_of_lastWritten _ (v : ℚ) (n + 1) (by omega) hw2 hl2
  have hout2 := AnalogConfigureColor.update_steady _ v hv hr2 hw2
  rw [(AnalogConfigureColor.updates_minValue s _).1,
    (AnalogConfigureColor.updates_minValue s _).2] at hout2
  have htot2 : (AnalogConfigureColor.record
      (AnalogConfigureColor.updates s (List.replicate n v)).2 v)._inputReadingsTotal
      = 10 * (v : ℚ) := by
    rw [hw2.2.2.2, hr2]; simp
  -- the last of the `n` calls
  have hlast : (AnalogConfigureColor.updates s (List.replicate n v)).1.getLast?
      = some (((map v s._minValue s._maxValue 0 360 : Int) : ℚ) / 360) := by
    obtain ⟨k, rfl⟩ : ∃ k, n = k + 1 := ⟨n - 1, by omega⟩
    have hsnd : (AnalogConfigureColor.updates s (List.replicate (k + 1) v)).2
        = AnalogConfigureColor.record (AnalogConfigureColor.updates s (List.replicate k v)).2 v := by
      rw [List.replicate_succ', AnalogConfigureColor.updates_append,
        AnalogConfigureColor.updates_singleton]
      exact AnalogConfigureColor.update_recorded_snd _ v hv
    rw [hsnd] at hr hwt
    have hout := AnalogConfigureColor.update_steady _ v hv hr hwt
    rw [(AnalogConfigureColor.updates_minValue s _).1,
      (AnalogConfigureColor.updates_minValue s _).2] at hout
    rw [List.replicate_succ', AnalogConfigureColor.updates_append,
      AnalogConfigureColor.updates_singleton]
    simp only [List.getLast?_concat]
    rw [hout]
  refine ⟨hr, htot, hlast, hout2, ?_, ?_, ?_⟩
  · rw [AnalogConfigureColor.update_recorded_snd _ v hv, hr2, hr]
  · rw [AnalogConfigureColor.update_recorded_snd _ v hv, htot2, htot]
  · rw [AnalogConfigureColor.update_recorded_snd _ v hv]
    rfl

/-- Ten calls reading `500` on a fresh mapper calibrated `(0, 1023)`, then one more. -/
theorem AnalogConfigureColor.steady_state_witness :
    (AnalogConfigureColor.updates (AnalogConfigureColor.ctor 0 1023)
        (List.replicate 10 500)).2._inputReadings = List.replicate 10 ((500 : Int) : ℚ)
    ∧ (AnalogConfigureColor.update (AnalogConfigureColor.updates (AnalogConfigureColor.ctor 0 1023)
        (List.replicate 10 500)).2 500).1 = ((map 500 0 1023 0 360 : Int) : ℚ) / 360 :=
  have h := AnalogConfigureColor.steady_state (AnalogConfigureColor.ctor 0 1023) 500 10
    ⟨0, 1023, [], rfl⟩ (by decide) (by decide) (by decide)
  ⟨h.1, h.2.2.2.1⟩

/-- C8. The returned value can leave `[0, 1] ∪ {-1}` on samples inside the calibration range:
from a fresh mapper calibrated `(500, 1023)`, nine calls reading `500` return `-1` eight times
and then `-34 / 360 = -17 / 180`, the remap of the mean `450` of nine readings and one empty
entry. -/
theorem AnalogConfigureColor.update_ninth_write_negative :
    (AnalogConfigureColor.updates (AnalogConfigureColor.ctor 500 1023) (List.replicate 9 500)).1
        = [-1, -1, -1, -1, -1, -1, -1, -1, -17 / 180]
    ∧ map 450 500 1023 0 360 = -34 := by
  have hmap : map 450 500 1023 0 360 = -34 := by decide
  refine ⟨?_, hmap⟩
  norm_num [AnalogConfigureColor.updates, AnalogConfigureColor.update,
    AnalogConfigureColor.record, AnalogConfigureColor.ctor, List.replicate, floatToLong, hmap]

/-! ## Further facts about `AnalogConfigureIntensity::update` -/

theorem tdiv_mono {a b c : Int} (hab : a ≤ b) (hc : 0 < c) : a.tdiv c ≤ b.tdiv c := by
  have hc0 : (0 : Int) ≤ c := le_of_lt hc
  rcases le_or_lt 0 a with ha | ha
  · rw [Int.tdiv_eq_ediv ha hc0, Int.tdiv_eq_ediv (le_trans ha hab) hc0]
    exact Int.ediv_le_ediv hc hab
  · have hna : a.tdiv c = -((-a) / c) := by
      rw [← Int.tdiv_eq_ediv (by omega) hc0, Int.neg_tdiv, neg_neg]
    have h1 : 0 ≤ (-a) / c := Int.ediv_nonneg (by omega) hc0
    rcases le_or_lt 0 b with hb | hb
    · have h2 : 0 ≤ b.tdiv c := Int.tdiv_nonneg hb hc0
      omega
    · have hnb : b.tdiv c = -((-b) / c) := by
        rw [← Int.tdiv_eq_ediv (by omega) hc0, Int.neg_tdiv, neg_neg]
      have h3 : (-b) / c ≤ (-a) / c := Int.ediv_le_ediv hc (by omega)
      omega

theorem clamp_mono {p q : ℚ} (h : p ≤ q) :
    (if p / 255 > 0 then p / 255 else 0) ≤ (if q / 255 > 0 then q / 255 else 0) := by
  have hd : p / 255 ≤ q / 255 := div_le_div_of_nonneg_right h (by norm_num)
  split_ifs with h1 h2 h2
  · exact hd
  · exact absurd (lt_of_lt_of_le h1 hd) h2
  · exact le_of_lt h2
  · exact le_refl _

/-- Inside the calibration range the clamp is idle: the direct result is the remap over `255`
and the inverted result is its complement. -/
theorem AnalogConfigureIntensity.update_of_remap (minValue maxValue analogValue : Int)
    (hmin : isInt minValue) (hmax : isInt maxValue)
    (hlt : minValue < maxValue) (h1 : minValue ≤ analogValue) (h2 : analogValue ≤ maxValue) :
    AnalogConfigureIntensity.update ⟨minValue, maxValue, false⟩ analogValue
        = ((map analogValue minValue maxValue 0 255 : Int) : ℚ) / 255
    ∧ AnalogConfigureIntensity.update ⟨minValue, maxValue, true⟩ analogValue
        = (255 - ((map analogValue minValue maxValue 0 255 : Int) : ℚ)) / 255
    ∧ map analogValue minValue maxValue 255 0
        = 255 - map analogValue minValue maxValue 0 255 := by
  have hx : isInt analogValue := ⟨le_trans hmin.1 h1, le_trans h2 hmax.2⟩
  obtain ⟨r1, r2⟩ := remap_in_range hlt h1 h2
  have e1 := map_0_255 hx hmin hmax
  have e2 := map_255_0 hx hmin hmax
  have key : ∀ m : Int, 0 ≤ m → (if ((m : ℚ) / 255 > 0) then (m : ℚ) / 255 else 0) = (m : ℚ) / 255 := by
    intro m hm
    have q0 : (0 : ℚ) ≤ (m : ℚ) := by exact_mod_cast hm
    split_ifs with h
    · rfl
    · have : (m : ℚ) / 255 ≤ 0 := not_lt.mp h
      have h0 : (0 : ℚ) ≤ (m : ℚ) / 255 := div_nonneg q0 (by norm_num)
      linarith
  refine ⟨?_, ?_, ?_⟩
  · simp only [AnalogConfigureIntensity.update, Bool.false_eq_true, if_false, e1]
    exact key _ r1
  · simp only [AnalogConfigureIntensity.update, if_true, e1, e2]
    rw [key _ (by omega)]
    push_cast
    ring
  · rw [e1, e2]

/-- C12. Midpoint scenario with calibration `(0, 1023)`: the sample `511` gives `127 / 255`
directly and `128 / 255` inverted, both within `0.01` of `0.5`; the sample `0` inverted gives
`1`. -/
theorem AnalogConfigureIntensity.update_midpoint :
    AnalogConfigureIntensity.update ⟨0, 1023, false⟩ 511 = 127 / 255
    ∧ |AnalogConfigureIntensity.update ⟨0, 1023, false⟩ 511 - 1 / 2| < 1 / 100
    ∧ AnalogConfigureIntensity.update ⟨0, 1023, true⟩ 511 = 128 / 255
    ∧ |AnalogConfigureIntensity.update ⟨0, 1023, true⟩ 511 - 1 / 2| < 1 / 100
    ∧ AnalogConfigureIntensity.update ⟨0, 1023, true⟩ 0 = 1 := by
  have m1 : map 511 0 1023 0 255 = 127 := by decide
  have m2 : map 511 0 1023 255 0 = 128 := by decide
  have m3 : map 0 0 1023 255 0 = 255 := by decide
  have u1 : AnalogConfigureIntensity.update ⟨0, 1023, false⟩ 511 = 127 / 255 := by
    norm_num [AnalogConfigureIntensity.update, m1]
  have u2 : AnalogConfigureIntensity.update ⟨0, 1023, true⟩ 511 = 128 / 255 := by
    norm_num [AnalogConfigureIntensity.update, m2]
  have u3 : AnalogConfigureIntensity.update ⟨0, 1023, true⟩ 0 = 1 := by
    norm_num [AnalogConfigureIntensity.update, m3]
  refine ⟨u1, ?_, u2, ?_, u3⟩
  · rw [u1, abs_lt]
    constructor <;> norm_num
  · rw [u2, abs_lt]
    constructor <;> norm_num

/-- C17. No upper clamp: with calibration `(100, 900)` the sample `1000`, above `maxValue`,
gives more than `1` directly, and the sample `50`, below `minValue`, gives more than `1`
inverted. -/
theorem AnalogConfigureIntensity.update_no_upper_clamp :
    (∃ minValue maxValue analogValue : Int, isInt minValue ∧ isInt maxValue ∧ isInt analogValue
        ∧ minValue < maxValue ∧ maxValue < analogValue
        ∧ 1 < AnalogConfigureIntensity.update ⟨minValue, maxValue, false⟩ analogValue)
    ∧ (∃ minValue maxValue analogValue : Int, isInt minValue ∧ isInt maxValue ∧ isInt analogValue
        ∧ minValue < maxValue ∧ analogValue < minValue
        ∧ 1 < AnalogConfigureIntensity.update ⟨minValue, maxValue, true⟩ analogValue) := by
  have m1 : map 1000 100 900 0 255 = 286 := by decide
  have m2 : map 50 100 900 255 0 = 270 := by decide
  constructor
  · refine ⟨100, 900, 1000, by decide, by decide, by decide, by decide, by decide, ?_⟩
    norm_num [AnalogConfigureIntensity.update, m1]
  · refine ⟨100, 900, 50, by decide, by decide, by decide, by decide, by decide, ?_⟩
    norm_num [AnalogConfigureIntensity.update, m2]

/-- C19. Monotonicity: for every 16-bit calibration with `minValue < maxValue` and 16-bit
samples `a ≤ b`, the direct result for `a` is at most the direct result for `b`, and the inverted
result for `a` is at least the inverted result for `b`. -/
theorem AnalogConfigureIntensity.update_monotone (minValue maxValue a b : Int)
    (hmin : isInt minValue) (hmax : isInt maxValue) (ha : isInt a) (hb : isInt b)
    (hlt : minValue < maxValue) (hab : a ≤ b) :
    AnalogConfigureIntensity.update ⟨minValue, maxValue, false⟩ a
        ≤ AnalogConfigureIntensity.update ⟨minValue, maxValue, false⟩ b
    ∧ AnalogConfigureIntensity.update ⟨minValue, maxValue, true⟩ b
        ≤ AnalogConfigureIntensity.update ⟨minValue, maxValue, true⟩ a := by
  have hq : ((a - minValue) * 255).tdiv (maxValue - minValue)
      ≤ ((b - minValue) * 255).tdiv (maxValue - minValue) :=
    tdiv_mono (by omega) (by omega)
  constructor
  · simp only [AnalogConfigureIntensity.update, Bool.false_eq_true, if_false,
      map_0_255 ha hmin hmax, map_0_255 hb hmin hmax]
    exact clamp_mono (by exact_mod_cast hq)
  · simp only [AnalogConfigureIntensity.update, if_true,
      map_255_0 ha hmin hmax, map_255_0 hb hmin hmax]
    exact clamp_mono (by exact_mod_cast (show
      255 - ((b - minValue) * 255).tdiv (maxValue - minValue)
        ≤ 255 - ((a - minValue) * 255).tdiv (maxValue - minValue) by omega))

/-- The samples `50 ≤ 1000` under the calibration `(100, 900)`, both outside the range. -/
theorem AnalogConfigureIntensity.update_monotone_witness :
    AnalogConfigureIntensity.update ⟨100, 900, false⟩ 50
        ≤ AnalogConfigureIntensity.update ⟨100, 900, false⟩ 1000
    ∧ AnalogConfigureIntensity.update ⟨100, 900, true⟩ 1000
        ≤ AnalogConfigureIntensity.update ⟨100, 900, true⟩ 50 :=
  AnalogConfigureIntensity.update_monotone 100 900 50 1000 (by decide) (by decide) (by decide)
    (by decide) (by decide) (by decide)

/-! ## Further facts about `MicrophoneConfigureIntensity::update` -/

theorem MicrophoneConfigureIntensity.foldl_sample_filter (w : Nat) (acc : Nat × Nat)
    (samples : List Int) :
    (samples.filter (fun (v : Int) => decide (v < 1024))).foldl
        (MicrophoneConfigureIntensity.sample w) acc
      = samples.foldl (MicrophoneConfigureIntensity.sample w) acc := by
  induction samples generalizing acc with
  | nil => rfl
  | cons v vs ih =>
    by_cases hv : v < 1024
    · rw [List.filter_cons, if_pos (decide_eq_true hv), List.foldl_cons, List.foldl_cons, ih]
    · rw [List.filter_cons, if_neg (fun h => hv (of_decide_eq_true h)), List.foldl_cons, ih]
      have hs : MicrophoneConfigureIntensity.sample w acc v = acc := by
        unfold MicrophoneConfigureIntensity.sample
        rw [if_neg hv]
      rw [hs]

theorem MicrophoneConfigureIntensity.scan_filter (w : Nat) (samples : List Int) :
    MicrophoneConfigureIntensity.scan w (samples.filter (fun (v : Int) => decide (v < 1024)))
      = MicrophoneConfigureIntensity.scan w samples :=
  MicrophoneConfigureIntensity.foldl_sample_filter w _ samples

/-- C15. Spurious samples are discarded: two windows that hold the same samples below `1024` in
the same order, that is, that differ only by samples `≥ 1024` inserted or removed at any
positions, end with the same `signalMax` and `signalMin` and return the same intensity, for every
width `w` of `unsigned int`. -/
theorem MicrophoneConfigureIntensity.update_ignores_spurious (w : Nat) (xs ys : List Int)
    (h : xs.filter (fun (v : Int) => decide (v < 1024))
      = ys.filter (fun (v : Int) => decide (v < 1024))) :
    MicrophoneConfigureIntensity.scan w xs = MicrophoneConfigureIntensity.scan w ys
    ∧ MicrophoneConfigureIntensity.update w xs = MicrophoneConfigureIntensity.update w ys := by
  have hscan : MicrophoneConfigureIntensity.scan w xs = MicrophoneConfigureIntensity.scan w ys := by
    rw [← MicrophoneConfigureIntensity.scan_filter w xs,
      ← MicrophoneConfigureIntensity.scan_filter w ys, h]
  refine ⟨hscan, ?_⟩
  unfold MicrophoneConfigureIntensity.update MicrophoneConfigureIntensity.peakToPeak
  rw [hscan]

/-- The window `100, 300, 50, 900` with the samples `1024`, `5000` and `2047` inserted. -/
theorem MicrophoneConfigureIntensity.update_ignores_spurious_witness :
    MicrophoneConfigureIntensity.scan 16 [1024, 100, 300, 5000, 50, 900, 2047]
        = MicrophoneConfigureIntensity.scan 16 [100, 300, 50, 900]
    ∧ MicrophoneConfigureIntensity.update 16 [1024, 100, 300, 5000, 50, 900, 2047]
        = MicrophoneConfigureIntensity.update 16 [100, 300, 50, 900] :=
  MicrophoneConfigureIntensity.update_ignores_spurious 16
    [1024, 100, 300, 5000, 50, 900, 2047] [100, 300, 50, 900] (by decide)

/-! ## Further facts about `AnalogConfigureColor::update` -/

/-- C11. Running-sum invariant: in every state reachable from the constructor by `update` calls
the history has its ten entries and `_inputReadingsTotal` is their sum. -/
theorem AnalogConfigureColor.running_sum (s : AnalogConfigureColor)
    (hs : AnalogConfigureColor.Reachable s) :
    s._inputReadings.length = 10 ∧ s._inputReadingsTotal = s._inputReadings.sum := by
  obtain ⟨h1, _, _, h4⟩ := AnalogConfigureColor.wellFormed_of_reachable s hs
  exact ⟨h1, h4⟩

/-- The state after the readings `500, 0, 300, 7` on a fresh mapper calibrated `(0, 1023)`. -/
theorem AnalogConfigureColor.running_sum_witness :
    (AnalogConfigureColor.updates (AnalogConfigureColor.ctor 0 1023)
        [500, 0, 300, 7]).2._inputReadings.length = 10
    ∧ (AnalogConfigureColor.updates (AnalogConfigureColor.ctor 0 1023)
        [500, 0, 300, 7]).2._inputReadingsTotal
      = (AnalogConfigureColor.updates (AnalogConfigureColor.ctor 0 1023)
        [500, 0, 300, 7]).2._inputReadings.sum :=
  AnalogConfigureColor.running_sum _ ⟨0, 1023, [500, 0, 300, 7], rfl⟩

/-- C16. A zero sample does not touch the history: in every state, a call that reads `0` leaves
`_inputReadings`, `_inputReadingsTotal`, `_inputReadingsIndex` and `_nextInputReadingsIndex` as
they are. -/
theorem AnalogConfigureColor.update_zero_frame (s : AnalogConfigureColor) :
    (AnalogConfigureColor.update s 0).2._inputReadings = s._inputReadings
    ∧ (AnalogConfigureColor.update s 0).2._inputReadingsTotal = s._inputReadingsTotal
    ∧ (AnalogConfigureColor.update s 0).2._inputReadingsIndex = s._inputReadingsIndex
    ∧ (AnalogConfigureColor.update s 0).2._nextInputReadingsIndex
        = s._nextInputReadingsIndex := by
  rw [AnalogConfigureColor.update_not_recorded s 0 (by norm_num)]
  exact ⟨rfl, rfl, rfl, rfl⟩

/-- C20. Cursor invariant: in every reachable state `_inputReadingsIndex < 10` and
`_nextInputReadingsIndex = (_inputReadingsIndex + 1) mod 10`; the entry that a call reads and
overwrites at the write cursor and the entry that its gate reads at the look-ahead cursor are
inside the array. -/
theorem AnalogConfigureColor.cursor_invariant (s : AnalogConfigureColor) (v : Int)
    (hs : AnalogConfigureColor.Reachable s) :
    s._inputReadingsIndex < 10
    ∧ s._nextInputReadingsIndex = (s._inputReadingsIndex + 1) % 10
    ∧ s._inputReadingsIndex < s._inputReadings.length
    ∧ (AnalogConfigureColor.update s v).2._nextInputReadingsIndex
        < (AnalogConfigureColor.update s v).2._inputReadings.length := by
  obtain ⟨h1, h2, h3, _⟩ := AnalogConfigureColor.wellFormed_of_reachable s hs
  obtain ⟨g1, _, g3, _⟩ := AnalogConfigureColor.wellFormed_update s v
    (AnalogConfigureColor.wellFormed_of_reachable s hs)
  refine ⟨h2, h3, ?_, ?_⟩
  · rw [h1]; exact h2
  · rw [g1, g3]
    exact Nat.mod_lt _ (by decide)

/-- The state after ten readings of `500` on a fresh mapper, where the write cursor has wrapped,
and a further reading of `7`. -/
theorem AnalogConfigureColor.cursor_invariant_witness :
    (AnalogConfigureColor.updates (AnalogConfigureColor.ctor 0 1023)
        (List.replicate 10 500)).2._inputReadingsIndex < 10
    ∧ (AnalogConfigureColor.updates (AnalogConfigureColor.ctor 0 1023)
        (List.replicate 10 500)).2._nextInputReadingsIndex
      = ((AnalogConfigureColor.updates (AnalogConfigureColor.ctor 0 1023)
        (List.replicate 10 500)).2._inputReadingsIndex + 1) % 10 :=
  have h := AnalogConfigureColor.cursor_invariant
    (AnalogConfigureColor.updates (AnalogConfigureColor.ctor 0 1023) (List.replicate 10 500)).2 7
    ⟨0, 1023, List.replicate 10 500, rfl⟩
  ⟨h.1, h.2.1⟩

/-! ## The moving average of `AnalogConfigureColor::update` -/

namespace AnalogConfigureColor

theorem sum_take_succ (H : List ℚ) (n : Nat) :
    (H.take (n + 1)).sum = (H.take n).sum + H.getD n 0 := by
  induction H generalizing n with
  | nil => simp
  | cons a H ih =>
    cases n with
    | zero => simp
    | succ n =>
      simp only [List.take_succ_cons, List.sum_cons, List.getD_cons_succ, ih n]
      ring

theorem history_ctor (minValue maxValue : Int) : History [] (ctor minValue maxValue) := by
  constructor
  · intro m _
    simp only [ctor, List.getD_eq_getElem?_getD]
    by_cases hj : (0 + 9 - m) % _numInputReadings < 10
    · simp [hj]
    · simp [hj]
  · simp [ctor]

theorem history_record (s : AnalogConfigureColor) (v : Int) (H : List ℚ) (h : WellFormed s)
    (hH : History H s) : History ((v : ℚ) :: H) (record s v) := by
  obtain ⟨h1, h2, _, _⟩ := h
  obtain ⟨hslots, htot⟩ := hH
  have hlen : s._inputReadingsIndex < s._inputReadings.length := by rw [h1]; exact h2
  constructor
  · intro m hm
    simp only [record]
    rw [getD_set _ _ _ _ hlen]
    cases m with
    | zero =>
      rw [if_pos (by simp only [_numInputReadings] at h2 ⊢; omega)]
      rfl
    | succ m =>
      rw [if_neg (by simp only [_numInputReadings] at h2 hm ⊢; omega)]
      have hidx : (((s._inputReadingsIndex + 1) % _numInputReadings + 9 - (m + 1))
          % _numInputReadings) = (s._inputReadingsIndex + 9 - m) % _numInputReadings := by
        simp only [_numInputReadings] at h2 hm ⊢
        omega
      rw [hidx, List.getD_cons_succ]
      exact hslots m (by omega)
  · have hold : s._inputReadings.getD s._inputReadingsIndex 0 = H.getD 9 0 := by
      have h9 := hslots 9 (by decide)
      have hidx : (s._inputReadingsIndex + 9 - 9) % _numInputReadings
          = s._inputReadingsIndex := by
        simp only [_numInputReadings] at h2 ⊢
        omega
      rw [hidx] at h9
      exact h9
    have hsplit : (H.take _numInputReadings).sum = (H.take 9).sum + H.getD 9 0 :=
      sum_take_succ H 9
    simp only [record]
    rw [htot, hold, hsplit]
    simp only [_numInputReadings, List.take_succ_cons, List.sum_cons]
    ring

theorem history_updates (s : AnalogConfigureColor) (samples : List Int) (H : List ℚ)
    (h : WellFormed s) (hH : History H s) :
    History (written H samples) (updates s samples).2 := by
  induction samples generalizing s H with
  | nil => simpa [updates, written] using hH
  | cons v vs ih =>
    simp only [updates, written]
    by_cases hv : (v : ℚ) > 1 / 10
    · rw [if_pos hv]
      have hrec : (update s v).2 = record s v := by
        simp only [update, if_pos hv]
      rw [hrec]
      exact ih _ _ (wellFormed_record s v h) (history_record s v H h hH)
    · rw [if_neg hv, update_not_recorded s v hv]
      exact ih _ _ h hH

theorem nonZeroRecent_cons (v : Int) (vs : List Int) :
    nonZeroRecent (v :: vs) = nonZeroRecent vs ++ (if v ≠ 0 then [v] else []) := by
  unfold nonZeroRecent
  by_cases hv : v ≠ 0
  · rw [List.filter_cons, if_pos (decide_eq_true hv), if_pos hv, List.reverse_cons]
  · rw [List.filter_cons, if_neg (fun h => hv (of_decide_eq_true h)), if_neg hv,
      List.append_nil]

theorem nonZeroRecent_concat (vs : List Int) (r : Int) (hr : r ≠ 0) :
    nonZeroRecent (vs ++ [r]) = r :: nonZeroRecent vs := by
  unfold nonZeroRecent
  rw [List.filter_append, List.filter_cons, if_pos (decide_eq_true hr), List.filter_nil,
    List.reverse_append]
  rfl

/-- On samples of the raw domain (none negative) the values written are the non-zero samples. -/
theorem written_eq (samples : List Int) (H : List ℚ) (hdom : ∀ v ∈ samples, 0 ≤ v) :
    written H samples = (nonZeroRecent samples).map (fun (v : Int) => (v : ℚ)) ++ H := by
  induction samples generalizing H with
  | nil => simp [written, nonZeroRecent]
  | cons v vs ih =>
    have hv0 : 0 ≤ v := hdom v (List.mem_cons_self v vs)
    have hvs : ∀ u ∈ vs, 0 ≤ u := fun u hu => hdom u (List.mem_cons_of_mem v hu)
    rw [written, nonZeroRecent_cons, ih _ hvs]
    by_cases hv : v = 0
    · subst hv
      simp
    · have hpos : 0 < v := lt_of_le_of_ne hv0 (fun e => hv e.symm)
      rw [if_pos (cast_gt_tenth hpos), if_pos hv]
      simp

theorem nonZeroRecent_pos (samples : List Int) (hdom : ∀ v ∈ samples, 0 ≤ v) :
    ∀ u ∈ nonZeroRecent samples, 0 < u := by
  intro u hu
  unfold nonZeroRecent at hu
  rw [List.mem_reverse, List.mem_filter] at hu
  have h0 : u ≠ 0 := of_decide_eq_true hu.2
  exact lt_of_le_of_ne (hdom u hu.1) (fun e => h0 e.symm)

theorem floatToLong_div_ten (S : Int) (hS : 0 ≤ S) :
    floatToLong ((S : ℚ) / 10) = S.tdiv 10 := by
  have hq : (0 : ℚ) ≤ (S : ℚ) / 10 := div_nonneg (by exact_mod_cast hS) (by norm_num)
  unfold floatToLong
  rw [if_pos hq, Int.tdiv_eq_ediv hS (by decide)]
  have h := Rat.floor_intCast_div_natCast S 10
  simpa using h

end AnalogConfigureColor

namespace AnalogConfigureColor

/-- The value returned by a call that records `v` and whose gate is open afterwards. -/
theorem update_recorded_fst (s : AnalogConfigureColor) (v : Int) (hv : 0 < v)
    (hsm : (record s v)._inputReadingsTotal / 10 > 1 / 10)
    (hnext : (record s v)._inputReadings.getD (record s v)._nextInputReadingsIndex 0 > 0) :
    (update s v).1 = ((map (floatToLong ((record s v)._inputReadingsTotal / 10))
      s._minValue s._maxValue 0 360 : Int) : ℚ) / 360 := by
  have hq : (v : ℚ) > 1 / 10 := cast_gt_tenth hv
  have h10 : ((_numInputReadings : Nat) : ℚ) = 10 := by
    show ((10 : Nat) : ℚ) = 10
    exact Nat.cast_ofNat
  unfold update
  simp only [if_pos hq]
  rw [h10, if_pos ⟨hsm, hnext, hv⟩]

theorem cast_sum (l : List Int) :
    (l.map (fun (v : Int) => (v : ℚ))).sum = ((l.sum : Int) : ℚ) := by
  induction l with
  | nil => simp
  | cons a l ih => rw [List.map_cons, List.sum_cons, List.sum_cons, ih, Int.cast_add]

theorem length_le_sum (l : List Int) (h : ∀ u ∈ l, 0 < u) : (l.length : Int) ≤ l.sum := by
  induction l with
  | nil => simp
  | cons a l ih =>
    have ha : 0 < a := h a (List.mem_cons_self a l)
    have hl : (l.length : Int) ≤ l.sum := ih (fun u hu => h u (List.mem_cons_of_mem a hu))
    simp only [List.sum_cons, List.length_cons]
    push_cast
    omega

end AnalogConfigureColor

/-- C14. Moving average once ready: from a fresh mapper with `minValue ≠ maxValue`, after
samples of the raw domain (none negative) of which at least ten were non-zero, a call reading a
non-zero sample `r` passes the validity gate and returns
`map(trunc(S / 10), minValue, maxValue, 0, 360) / 360`, where `S` is the sum of the ten most
recent non-zero samples, `r` included; zero samples in between do not count. -/
theorem AnalogConfigureColor.update_moving_average (minValue maxValue : Int)
    (samples : List Int) (r : Int) (_hne : minValue ≠ maxValue)
    (hdom : ∀ v ∈ samples, 0 ≤ v)
    (hten : 10 ≤ (AnalogConfigureColor.nonZeroRecent samples).length) (hr : 0 < r) :
    (AnalogConfigureColor.update
        (AnalogConfigureColor.updates (AnalogConfigureColor.ctor minValue maxValue) samples).2 r).1
      = ((map ((AnalogConfigureColor.recentSum (samples ++ [r])).tdiv 10)
          minValue maxValue 0 360 : Int) : ℚ) / 360 := by
  have hw := AnalogConfigureColor.wellFormed_updates _ samples
    (AnalogConfigureColor.wellFormed_ctor minValue maxValue)
  have hH := AnalogConfigureColor.history_updates _ samples []
    (AnalogConfigureColor.wellFormed_ctor minValue maxValue)
    (AnalogConfigureColor.history_ctor minValue maxValue)
  rw [AnalogConfigureColor.written_eq samples [] hdom, List.append_nil] at hH
  have hpos := AnalogConfigureColor.nonZeroRecent_pos samples hdom
  obtain ⟨hslots, htot⟩ := AnalogConfigureColor.history_record _ r _ hw hH
  obtain ⟨_, _, hnx, _⟩ := AnalogConfigureColor.wellFormed_record _ r hw
  -- the running total after the write is the sum of the ten most recent non-zero samples
  have hS : (AnalogConfigureColor.record
      (AnalogConfigureColor.updates (AnalogConfigureColor.ctor minValue maxValue) samples).2
        r)._inputReadingsTotal
      = ((AnalogConfigureColor.recentSum (samples ++ [r]) : Int) : ℚ) := by
    rw [htot]
    unfold AnalogConfigureColor.recentSum
    rw [AnalogConfigureColor.nonZeroRecent_concat samples r (by omega),
      ← AnalogConfigureColor.cast_sum, List.map_take, List.map_cons]
  have hSr : 10 ≤ AnalogConfigureColor.recentSum (samples ++ [r]) := by
    unfold AnalogConfigureColor.recentSum
    rw [AnalogConfigureColor.nonZeroRecent_concat samples r (by omega)]
    simp only [AnalogConfigureColor._numInputReadings, List.take_succ_cons, List.sum_cons]
    have h9 := AnalogConfigureColor.length_le_sum
      ((AnalogConfigureColor.nonZeroRecent samples).take 9)
      (fun u hu => hpos u (List.mem_of_mem_take hu))
    rw [List.length_take, Nat.min_eq_left (by omega)] at h9
    push_cast at h9
    omega
  have hS0 : 0 ≤ AnalogConfigureColor.recentSum (samples ++ [r]) := by omega
  -- the gate
  have hsm : (AnalogConfigureColor.record
      (AnalogConfigureColor.updates (AnalogConfigureColor.ctor minValue maxValue) samples).2
        r)._inputReadingsTotal / 10 > 1 / 10 := by
    rw [hS]
    have h1 : (10 : ℚ) ≤ ((AnalogConfigureColor.recentSum (samples ++ [r]) : Int) : ℚ) := by
      exact_mod_cast hSr
    have : (1 : ℚ) / 10 < ((AnalogConfigureColor.recentSum (samples ++ [r]) : Int) : ℚ) / 10 :=
      div_lt_div_of_pos_right (by linarith) (by norm_num)
    exact this
  have hnext : (AnalogConfigureColor.record
      (AnalogConfigureColor.updates (AnalogConfigureColor.ctor minValue maxValue) samples).2
        r)._inputReadings.getD (AnalogConfigureColor.record
      (AnalogConfigureColor.updates (AnalogConfigureColor.ctor minValue maxValue) samples).2
        r)._nextInputReadingsIndex 0 > 0 := by
    have h8 := hslots 8 (by decide)
    have hidx : ((AnalogConfigureColor.record
        (AnalogConfigureColor.updates (AnalogConfigureColor.ctor minValue maxValue) samples).2
          r)._inputReadingsIndex + 9 - 8) % AnalogConfigureColor._numInputReadings
        = (AnalogConfigureColor.record
        (AnalogConfigureColor.updates (AnalogConfigureColor.ctor minValue maxValue) samples).2
          r)._nextInputReadingsIndex := by
      rw [hnx]
      simp only [AnalogConfigureColor._numInputReadings]
      omega
    rw [hidx] at h8
    rw [h8, List.getD_cons_succ,
      List.getD_eq_getElem _ _ (by rw [List.length_map]; omega), List.getElem_map]
    have hmem := hpos _ (List.getElem_mem (l := AnalogConfigureColor.nonZeroRecent samples)
      (n := 7) (by omega))
    exact_mod_cast hmem
  rw [AnalogConfigureColor.update_recorded_fst _ r hr hsm hnext, hS,
    AnalogConfigureColor.floatToLong_div_ten _ hS0,
    (AnalogConfigureColor.updates_minValue _ samples).1,
    (AnalogConfigureColor.updates_minValue _ samples).2]
  rfl

/-- Ten readings of `500` with a zero reading among them on a fresh mapper calibrated
`(0, 1023)`, then a reading of `200`. -/
theorem AnalogConfigureColor.update_moving_average_witness :
    (AnalogConfigureColor.update
        (AnalogConfigureColor.updates (AnalogConfigureColor.ctor 0 1023)
          [500, 500, 500, 0, 500, 500, 500, 500, 500, 500, 500]).2 200).1
      = ((map ((AnalogConfigureColor.recentSum
          ([500, 500, 500, 0, 500, 500, 500, 500, 500, 500, 500] ++ [200])).tdiv 10)
          0 1023 0 360 : Int) : ℚ) / 360 :=
  AnalogConfigureColor.update_moving_average 0 1023
    [500, 500, 500, 0, 500, 500, 500, 500, 500, 500, 500] 200
    (by decide) (by decide) (by decide) (by decide)

/-! ## The `float` results of `AnalogConfigureIntensity::update` -/

theorem roundNearestEven_intCast (z : Int) : roundNearestEven (z : ℚ) = z := by
  unfold roundNearestEven
  simp

theorem binary32_zero : binary32 0 = 0 := by
  have h0 : roundNearestEven (0 : ℚ) = 0 := by
    have h := roundNearestEven_intCast 0
    rwa [Int.cast_zero] at h
  unfold binary32
  rw [zero_div, h0, Int.cast_zero, zero_mul]

/-- Integers below `2^24` in magnitude are `float` values: the conversion `long → float` of such
an integer is exact. -/
theorem binary32_intCast (m : Int) (h : m.natAbs < 2 ^ 24) : binary32 (m : ℚ) = m := by
  by_cases hm : m = 0
  · subst hm
    simpa using binary32_zero
  · have hn : m.natAbs ≠ 0 := Int.natAbs_ne_zero.mpr hm
    have habs : |(m : ℚ)| = ((m.natAbs : Nat) : ℚ) := by
      rw [← Int.cast_abs, Int.abs_eq_natAbs, Int.cast_natCast]
    have hk : Nat.log 2 m.natAbs < 24 := Nat.log_lt_of_lt_pow hn h
    have he : ulpExp (m : ℚ) = (Nat.log 2 m.natAbs : Int) - 23 := by
      unfold ulpExp
      rw [habs, Int.log_natCast]
      omega
    obtain ⟨j, hj⟩ : ∃ j : Nat, Nat.log 2 m.natAbs + j = 23 := ⟨23 - Nat.log 2 m.natAbs, by omega⟩
    have hexp : (Nat.log 2 m.natAbs : Int) - 23 = -(j : Int) := by omega
    have hscaled : (m : ℚ) / (2 : ℚ) ^ (-(j : Int)) = ((m * 2 ^ j : Int) : ℚ) := by
      rw [zpow_neg, zpow_natCast, div_inv_eq_mul]
      push_cast
      ring
    unfold binary32
    rw [he, hexp, hscaled, roundNearestEven_intCast, zpow_neg, zpow_natCast]
    push_cast
    field_simp

theorem roundNearestEven_nonpos {x : ℚ} (hx : x ≤ 0) : roundNearestEven x ≤ 0 := by
  have hf : ⌊x⌋ ≤ 0 := by
    have h1 : (⌊x⌋ : ℚ) ≤ x := Int.floor_le x
    have h2 : (⌊x⌋ : ℚ) ≤ 0 := le_trans h1 hx
    exact_mod_cast h2
  unfold roundNearestEven
  rcases lt_or_eq_of_le hf with hlt | heq
  · split_ifs <;> omega
  · have hx0 : 0 ≤ x := by
      have h1 : (⌊x⌋ : ℚ) ≤ x := Int.floor_le x
      rw [heq] at h1
      exact_mod_cast h1
    have hxe : x = 0 := le_antisymm hx hx0
    subst hxe
    simp

theorem roundNearestEven_pos {x : ℚ} (hx : 1 ≤ x) : 0 < roundNearestEven x := by
  have hf : 1 ≤ ⌊x⌋ := Int.le_floor.mpr (by exact_mod_cast hx)
  unfold roundNearestEven
  split_ifs <;> omega

theorem binary32_nonpos {q : ℚ} (hq : q ≤ 0) : binary32 q ≤ 0 := by
  have hp : (0 : ℚ) < (2 : ℚ) ^ ulpExp q := zpow_pos (by norm_num) _
  have hx : q / (2 : ℚ) ^ ulpExp q ≤ 0 := div_nonpos_of_nonpos_of_nonneg hq (le_of_lt hp)
  have hr : ((roundNearestEven (q / (2 : ℚ) ^ ulpExp q) : Int) : ℚ) ≤ 0 := by
    exact_mod_cast roundNearestEven_nonpos hx
  unfold binary32
  exact mul_nonpos_of_nonpos_of_nonneg hr (le_of_lt hp)

/-- A positive quotient of an integer by `255` does not underflow: its `float` is positive. -/
theorem binary32_pos_of_div {m : Int} (hm : 0 < m) : 0 < binary32 ((m : ℚ) / 255) := by
  have hq : (1 : ℚ) / 255 ≤ (m : ℚ) / 255 :=
    div_le_div_of_nonneg_right (by exact_mod_cast hm) (by norm_num)
  have hq0 : (0 : ℚ) < (m : ℚ) / 255 := lt_of_lt_of_le (by norm_num) hq
  have habs : |(m : ℚ) / 255| = (m : ℚ) / 255 := abs_of_pos hq0
  have hlog : (-8 : Int) ≤ Int.log 2 ((m : ℚ) / 255) := by
    rw [← Int.zpow_le_iff_le_log (by norm_num) hq0]
    refine le_trans ?_ hq
    norm_num
  have he : ulpExp ((m : ℚ) / 255) = Int.log 2 ((m : ℚ) / 255) - 23 := by
    unfold ulpExp
    rw [habs]
    omega
  have hpow : ((2 : Nat) : ℚ) ^ Int.log 2 ((m : ℚ) / 255) ≤ (m : ℚ) / 255 :=
    Int.zpow_log_le_self (by norm_num) hq0
  have hp : (0 : ℚ) < (2 : ℚ) ^ (Int.log 2 ((m : ℚ) / 255) - 23) := zpow_pos (by norm_num) _
  have hx : (1 : ℚ) ≤ (m : ℚ) / 255 / (2 : ℚ) ^ (Int.log 2 ((m : ℚ) / 255) - 23) := by
    rw [le_div_iff₀ hp, one_mul, zpow_sub₀ (by norm_num)]
    have h23 : (1 : ℚ) ≤ (2 : ℚ) ^ (23 : Int) := by norm_num
    have hpl : (0 : ℚ) < (2 : ℚ) ^ Int.log 2 ((m : ℚ) / 255) := zpow_pos (by norm_num) _
    have h1 : (2 : ℚ) ^ Int.log 2 ((m : ℚ) / 255) / (2 : ℚ) ^ (23 : Int)
        ≤ (2 : ℚ) ^ Int.log 2 ((m : ℚ) / 255) := div_le_self (le_of_lt hpl) h23
    have hpow2 : (2 : ℚ) ^ Int.log 2 ((m : ℚ) / 255) ≤ (m : ℚ) / 255 := by
      simpa using hpow
    exact le_trans h1 hpow2
  unfold binary32
  rw [he]
  exact mul_pos (by exact_mod_cast roundNearestEven_pos hx) hp

/-- The `float` quotients by `255` of the values `m` and `255 - m` that the two remaps of a
sample inside the calibration range take, checked value by value for `m < 128` (the other half
follows by exchanging the two): their sum computed in `float` arithmetic is exactly `1`, and
their exact sum differs from `1` by at most `2^(-25)`. -/
theorem quotient_float_facts : ∀ m : Fin 128,
    binary32 (binary32 ((255 - (m.val : ℚ)) / 255) + binary32 ((m.val : ℚ) / 255)) = 1
    ∧ -(1 / 33554432) ≤ binary32 ((255 - (m.val : ℚ)) / 255) + binary32 ((m.val : ℚ) / 255) - 1
    ∧ binary32 ((255 - (m.val : ℚ)) / 255) + binary32 ((m.val : ℚ) / 255) - 1
        ≤ 1 / 33554432 := by
  decide!

theorem quotient_float_facts_low (m : Int) (h0 : 0 ≤ m) (h1 : m ≤ 127) :
    binary32 (binary32 ((255 - (m : ℚ)) / 255) + binary32 ((m : ℚ) / 255)) = 1
    ∧ -(1 / 33554432) ≤ binary32 ((255 - (m : ℚ)) / 255) + binary32 ((m : ℚ) / 255) - 1
    ∧ binary32 ((255 - (m : ℚ)) / 255) + binary32 ((m : ℚ) / 255) - 1 ≤ 1 / 33554432 := by
  have h := quotient_float_facts ⟨m.toNat, by omega⟩
  have hz : ((m.toNat : Nat) : Int) = m := Int.toNat_of_nonneg h0
  have hc : ((m.toNat : Nat) : ℚ) = (m : ℚ) := by
    rw [← Int.cast_natCast, hz]
  simp only [Fin.val_mk, hc] at h
  exact h

theorem quotient_float_facts_int (m : Int) (h0 : 0 ≤ m) (h1 : m ≤ 255) :
    0 ≤ binary32 ((m : ℚ) / 255)
    ∧ binary32 (binary32 ((255 - (m : ℚ)) / 255) + binary32 ((m : ℚ) / 255)) = 1
    ∧ -(1 / 33554432) ≤ binary32 ((255 - (m : ℚ)) / 255) + binary32 ((m : ℚ) / 255) - 1
    ∧ binary32 ((255 - (m : ℚ)) / 255) + binary32 ((m : ℚ) / 255) - 1 ≤ 1 / 33554432 := by
  have hnonneg : 0 ≤ binary32 ((m : ℚ) / 255) := by
    rcases lt_or_eq_of_le h0 with hpos | hzero
    · exact le_of_lt (binary32_pos_of_div hpos)
    · rw [← hzero]
      simp [binary32_zero]
  refine ⟨hnonneg, ?_⟩
  rcases le_or_lt m 127 with hlow | hhigh
  · exact quotient_float_facts_low m h0 hlow
  · have h := quotient_float_facts_low (255 - m) (by omega) (by omega)
    have hc1 : (255 - ((255 - m : Int) : ℚ)) / 255 = (m : ℚ) / 255 := by
      push_cast
      ring
    have hc2 : (((255 - m : Int) : ℚ)) / 255 = (255 - (m : ℚ)) / 255 := by
      push_cast
      ring
    rw [hc1, hc2, add_comm] at h
    exact h

theorem AnalogConfigureIntensity.intensityOfRemap_of_range (m : Int) (h0 : 0 ≤ m)
    (h1 : m ≤ 255) :
    AnalogConfigureIntensity.intensityOfRemap m = binary32 ((m : ℚ) / 255) := by
  have hpos := (quotient_float_facts_int m h0 h1).1
  unfold AnalogConfigureIntensity.intensityOfRemap
  simp only
  rw [binary32_intCast m (by omega)]
  split_ifs with h
  · rfl
  · exact le_antisymm hpos (not_lt.mp h)

/-- Inside the calibration range the `float` results are the `float` quotients of the remap `m`
onto `[0, 255]` and of `255 - m`. -/
theorem AnalogConfigureIntensity.updateFloat_of_remap (minValue maxValue analogValue : Int)
    (hmin : isInt minValue) (hmax : isInt maxValue)
    (hlt : minValue < maxValue) (h1 : minValue ≤ analogValue) (h2 : analogValue ≤ maxValue) :
    0 ≤ map analogValue minValue maxValue 0 255
    ∧ map analogValue minValue maxValue 0 255 ≤ 255
    ∧ AnalogConfigureIntensity.updateFloat ⟨minValue, maxValue, false⟩ analogValue
        = binary32 (((map analogValue minValue maxValue 0 255 : Int) : ℚ) / 255)
    ∧ AnalogConfigureIntensity.updateFloat ⟨minValue, maxValue, true⟩ analogValue
        = binary32 ((255 - ((map analogValue minValue maxValue 0 255 : Int) : ℚ)) / 255) := by
  have hx : isInt analogValue := ⟨le_trans hmin.1 h1, le_trans h2 hmax.2⟩
  obtain ⟨r1, r2⟩ := remap_in_range hlt h1 h2
  have e1 := map_0_255 hx hmin hmax
  have e2 := map_255_0 hx hmin hmax
  rw [← e1] at r1 r2 e2
  refine ⟨r1, r2, ?_, ?_⟩
  · simp only [AnalogConfigureIntensity.updateFloat, Bool.false_eq_true, if_false]
    exact AnalogConfigureIntensity.intensityOfRemap_of_range _ r1 r2
  · simp only [AnalogConfigureIntensity.updateFloat, if_true, e2]
    rw [AnalogConfigureIntensity.intensityOfRemap_of_range _ (by omega) (by omega)]
    push_cast
    rfl

/-- For 16-bit arguments the `float` that `update` returns is the `float` nearest to the exact
quotient given by `AnalogConfigureIntensity.update`. -/
theorem AnalogConfigureIntensity.updateFloat_eq (minValue maxValue analogValue : Int)
    (invert : Bool) (hmin : isInt minValue) (hmax : isInt maxValue) (hx : isInt analogValue) :
    AnalogConfigureIntensity.updateFloat ⟨minValue, maxValue, invert⟩ analogValue
      = binary32 (AnalogConfigureIntensity.update ⟨minValue, maxValue, invert⟩ analogValue) := by
  have key : ∀ M : Int, M.natAbs < 2 ^ 24 →
      AnalogConfigureIntensity.intensityOfRemap M
        = binary32 (if (M : ℚ) / 255 > 0 then (M : ℚ) / 255 else 0) := by
    intro M hM
    unfold AnalogConfigureIntensity.intensityOfRemap
    simp only
    rw [binary32_intCast M hM]
    rcases lt_or_le 0 M with hpos | hle
    · have hq : (M : ℚ) / 255 > 0 := div_pos (by exact_mod_cast hpos) (by norm_num)
      rw [if_pos (binary32_pos_of_div hpos), if_pos hq]
    · have hq : (M : ℚ) / 255 ≤ 0 :=
        div_nonpos_of_nonpos_of_nonneg (by exact_mod_cast hle) (by norm_num)
      rw [if_neg (not_lt.mpr (binary32_nonpos hq)), if_neg (not_lt.mpr hq), binary32_zero]
  obtain ⟨hx1, hx2⟩ := hx
  obtain ⟨ha1, ha2⟩ := hmin
  obtain ⟨hb1, hb2⟩ := hmax
  have hq := tdiv_bounds ((analogValue - minValue) * 255) (maxValue - minValue)
  cases invert
  · have e := map_0_255 ⟨hx1, hx2⟩ ⟨ha1, ha2⟩ ⟨hb1, hb2⟩
    simp only [AnalogConfigureIntensity.updateFloat, AnalogConfigureIntensity.update,
      Bool.false_eq_true, if_false]
    exact key _ (by rw [e]; omega)
  · have e := map_255_0 ⟨hx1, hx2⟩ ⟨ha1, ha2⟩ ⟨hb1, hb2⟩
    simp only [AnalogConfigureIntensity.updateFloat, AnalogConfigureIntensity.update, if_true]
    exact key _ (by rw [e]; omega)

/-- C13, as stated, fails: with calibration `(0, 1023)` and the sample `511` the direct result
is `127 / 255` and the inverted result is `128 / 255`, not the reciprocal `255 / 127`; as
`float`s the two results are `16711423 / 2^25` and `8421505 / 2^24`. -/
theorem AnalogConfigureIntensity.update_inverted_not_reciprocal :
    AnalogConfigureIntensity.update ⟨0, 1023, false⟩ 511 = 127 / 255
    ∧ AnalogConfigureIntensity.update ⟨0, 1023, true⟩ 511 = 128 / 255
    ∧ AnalogConfigureIntensity.update ⟨0, 1023, true⟩ 511
        ≠ 1 / AnalogConfigureIntensity.update ⟨0, 1023, false⟩ 511
    ∧ AnalogConfigureIntensity.updateFloat ⟨0, 1023, false⟩ 511 = 16711423 / 33554432
    ∧ AnalogConfigureIntensity.updateFloat ⟨0, 1023, true⟩ 511 = 8421505 / 16777216
    ∧ AnalogConfigureIntensity.updateFloat ⟨0, 1023, true⟩ 511
        ≠ 1 / AnalogConfigureIntensity.updateFloat ⟨0, 1023, false⟩ 511 := by
  have m1 : map 511 0 1023 0 255 = 127 := by decide
  have m2 : map 511 0 1023 255 0 = 128 := by decide
  have u1 : AnalogConfigureIntensity.update ⟨0, 1023, false⟩ 511 = 127 / 255 := by
    norm_num [AnalogConfigureIntensity.update, m1]
  have u2 : AnalogConfigureIntensity.update ⟨0, 1023, true⟩ 511 = 128 / 255 := by
    norm_num [AnalogConfigureIntensity.update, m2]
  have b1 : binary32 (((127 : Int) : ℚ) / 255) = 16711423 / 33554432 := by decide!
  have b2 : binary32 ((255 - ((127 : Int) : ℚ)) / 255) = 8421505 / 16777216 := by decide!
  obtain ⟨_, _, f1, f2⟩ := AnalogConfigureIntensity.updateFloat_of_remap 0 1023 511
    (by decide) (by decide) (by decide) (by decide) (by decide)
  rw [m1] at f1 f2
  rw [b1] at f1
  rw [b2] at f2
  refine ⟨u1, u2, ?_, f1, f2, ?_⟩
  · rw [u1, u2]
    norm_num
  · rw [f1, f2]
    norm_num

/-- C13, amended. When `_invert` is true, `update` returns the complement of the direct
intensity up to `float` rounding: for every 16-bit calibration with `minValue < maxValue` and
every sample inside the calibration range, with `m` the remap of the sample onto `[0, 255]`, the
direct result is the `float` nearest to `m / 255`, the inverted result is the `float` nearest to
`1 - m / 255`, and the inverted result differs from `1` minus the direct result by at most
`2^(-25)`. -/
theorem AnalogConfigureIntensity.update_inverted_complement
    (minValue maxValue analogValue : Int) (hmin : isInt minValue) (hmax : isInt maxValue)
    (hlt : minValue < maxValue) (h1 : minValue ≤ analogValue) (h2 : analogValue ≤ maxValue) :
    AnalogConfigureIntensity.updateFloat ⟨minValue, maxValue, false⟩ analogValue
        = binary32 (((map analogValue minValue maxValue 0 255 : Int) : ℚ) / 255)
    ∧ AnalogConfigureIntensity.updateFloat ⟨minValue, maxValue, true⟩ analogValue
        = binary32 (1 - ((map analogValue minValue maxValue 0 255 : Int) : ℚ) / 255)
    ∧ |AnalogConfigureIntensity.updateFloat ⟨minValue, maxValue, true⟩ analogValue
        - (1 - AnalogConfigureIntensity.updateFloat ⟨minValue, maxValue, false⟩ analogValue)|
        ≤ 1 / 33554432 := by
  obtain ⟨r1, r2, f1, f2⟩ :=
    AnalogConfigureIntensity.updateFloat_of_remap minValue maxValue analogValue hmin hmax hlt h1 h2
  obtain ⟨_, _, q3, q4⟩ := quotient_float_facts_int _ r1 r2
  have hc : (255 - ((map analogValue minValue maxValue 0 255 : Int) : ℚ)) / 255
      = 1 - ((map analogValue minValue maxValue 0 255 : Int) : ℚ) / 255 := by
    field_simp
  refine ⟨f1, ?_, ?_⟩
  · rw [f2, hc]
  · rw [f1, f2, abs_le]
    constructor <;> linarith

/-- The sample `511` under the calibration `(0, 1023)`. -/
theorem AnalogConfigureIntensity.update_inverted_complement_witness :
    AnalogConfigureIntensity.updateFloat ⟨0, 1023, false⟩ 511
        = binary32 (((map 511 0 1023 0 255 : Int) : ℚ) / 255)
    ∧ AnalogConfigureIntensity.updateFloat ⟨0, 1023, true⟩ 511
        = binary32 (1 - ((map 511 0 1023 0 255 : Int) : ℚ) / 255)
    ∧ |AnalogConfigureIntensity.updateFloat ⟨0, 1023, true⟩ 511
        - (1 - AnalogConfigureIntensity.updateFloat ⟨0, 1023, false⟩ 511)| ≤ 1 / 33554432 :=
  AnalogConfigureIntensity.update_inverted_complement 0 1023 511 (by decide) (by decide)
    (by decide) (by decide) (by decide)

/-- C18, as stated, fails: with calibration `(100, 900)` and the sample `300` the remaps are
`192` and `63`, the returned `float`s are `12632257 / 2^24` and `16579837 / 2^26`, and their sum
is `67108865 / 67108864`, not `1`. -/
theorem AnalogConfigureIntensity.update_sum_not_one :
    map 300 100 900 255 0 = 192 ∧ map 300 100 900 0 255 = 63
    ∧ AnalogConfigureIntensity.updateFloat ⟨100, 900, true⟩ 300 = 12632257 / 16777216
    ∧ AnalogConfigureIntensity.updateFloat ⟨100, 900, false⟩ 300 = 16579837 / 67108864
    ∧ AnalogConfigureIntensity.updateFloat ⟨100, 900, true⟩ 300
        + AnalogConfigureIntensity.updateFloat ⟨100, 900, false⟩ 300 = 67108865 / 67108864
    ∧ AnalogConfigureIntensity.updateFloat ⟨100, 900, true⟩ 300
        + AnalogConfigureIntensity.updateFloat ⟨100, 900, false⟩ 300 ≠ 1 := by
  have m1 : map 300 100 900 0 255 = 63 := by decide
  have m2 : map 300 100 900 255 0 = 192 := by decide
  have b1 : binary32 (((63 : Int) : ℚ) / 255) = 16579837 / 67108864 := by decide!
  have b2 : binary32 ((255 - ((63 : Int) : ℚ)) / 255) = 12632257 / 16777216 := by decide!
  obtain ⟨_, _, f1, f2⟩ := AnalogConfigureIntensity.updateFloat_of_remap 100 900 300
    (by decide) (by decide) (by decide) (by decide) (by decide)
  rw [m1] at f1 f2
  rw [b1] at f1
  rw [b2] at f2
  refine ⟨m2, m1, f2, f1, ?_, ?_⟩
  · rw [f1, f2]
    norm_num
  · rw [f1, f2]
    norm_num

/-- C18, amended. For every 16-bit calibration with `minValue < maxValue` and every sample
inside the calibration range, the integer remaps onto `[255, 0]` and `[0, 255]` sum to exactly
`255`; the inverted and the direct result sum to `1` up to the rounding of the two divisions by
`255`: their exact sum differs from `1` by at most `2^(-25)`, and their sum computed in `float`
arithmetic is exactly `1`. -/
theorem AnalogConfigureIntensity.update_complementary
    (minValue maxValue analogValue : Int) (hmin : isInt minValue) (hmax : isInt maxValue)
    (hlt : minValue < maxValue) (h1 : minValue ≤ analogValue) (h2 : analogValue ≤ maxValue) :
    map analogValue minValue maxValue 255 0 + map analogValue minValue maxValue 0 255 = 255
    ∧ |AnalogConfigureIntensity.updateFloat ⟨minValue, maxValue, true⟩ analogValue
        + AnalogConfigureIntensity.updateFloat ⟨minValue, maxValue, false⟩ analogValue - 1|
        ≤ 1 / 33554432
    ∧ binary32 (AnalogConfigureIntensity.updateFloat ⟨minValue, maxValue, true⟩ analogValue
        + AnalogConfigureIntensity.updateFloat ⟨minValue, maxValue, false⟩ analogValue) = 1 := by
  obtain ⟨_, _, e3⟩ :=
    AnalogConfigureIntensity.update_of_remap minValue maxValue analogValue hmin hmax hlt h1 h2
  obtain ⟨r1, r2, f1, f2⟩ :=
    AnalogConfigureIntensity.updateFloat_of_remap minValue maxValue analogValue hmin hmax hlt h1 h2
  obtain ⟨_, q2, q3, q4⟩ := quotient_float_facts_int _ r1 r2
  refine ⟨?_, ?_, ?_⟩
  · rw [e3]
    omega
  · rw [f1, f2, abs_le]
    exact ⟨q3, q4⟩
  · rw [f1, f2]
    exact q2

/-- The sample `300` under the calibration `(100, 900)`. -/
theorem AnalogConfigureIntensity.update_complementary_witness :
    map 300 100 900 255 0 + map 300 100 900 0 255 = 255
    ∧ |AnalogConfigureIntensity.updateFloat ⟨100, 900, true⟩ 300
        + AnalogConfigureIntensity.updateFloat ⟨100, 900, false⟩ 300 - 1| ≤ 1 / 33554432
    ∧ binary32 (AnalogConfigureIntensity.updateFloat ⟨100, 900, true⟩ 300
        + AnalogConfigureIntensity.updateFloat ⟨100, 900, false⟩ 300) = 1 :=
  AnalogConfigureIntensity.update_complementary 100 900 300 (by decide) (by decide)
    (by decide) (by decide) (by decide)
